import Mathlib

/-!
# Verification of the brainrust interpreter and optimizer

Shallow embedding of `src/main.rs`: the primitive `Command` token stream, the
`OptimizedCommand` instruction tree, the tree builder, the peephole optimizer
(`optimize` / `optimize_vec` / `optimize_jump`) and the tree-walking execution
engine.  Machine bytes (`u8`) are modelled as `Fin 256`, so `wrapping_add` and
byte overflow are ordinary `Fin` addition (mod 256).  Pointer arithmetic
(`i32` in the source) is modelled on unbounded `Int`, matching the spec's
unbounded sparse tape; the tape itself is a total function `Int → Fin 256`
defaulting to 0, the view presented by `HashMap::get(..).unwrap_or(&0)`.
The reader and writer are modelled as the list of not-yet-consumed input
bytes and the list of already-written output bytes.
-/

/-- The eight primitive commands (`enum Command`), names as in the source. -/
inductive Command where
  | IncremenentPointer
  | DecrementPointer
  | IncrementValue
  | DecrementValue
  | Print
  | Read
  | Jump
  | Target
deriving DecidableEq, Repr

/-- The instruction tree (`enum OptimizedCommand`). -/
inductive OptimizedCommand where
  | MovePointer : Int → OptimizedCommand
  | AddValue : Fin 256 → OptimizedCommand
  | SetValue : Fin 256 → OptimizedCommand
  | Print : OptimizedCommand
  | Read : OptimizedCommand
  | List : List OptimizedCommand → OptimizedCommand
  | Jump : OptimizedCommand → OptimizedCommand
  | AddTo : Int → OptimizedCommand
deriving Repr

mutual

/-- Size of an instruction tree: a termination measure for the optimizer,
also used to show optimization never grows a tree. -/
def csize : OptimizedCommand → Nat
  | .Jump c => 1 + csize c
  | .List v => 1 + lsize v
  | _ => 1

/-- Total size of a list of instruction trees. -/
def lsize : List OptimizedCommand → Nat
  | [] => 0
  | c :: cs => csize c + lsize cs

end

/-- The execution engine state (`struct Engine`): sparse byte tape with
default 0, current pointer, remaining input bytes, written output bytes. -/
structure Engine where
  tape : Int → Fin 256
  pointer : Int
  input : List (Fin 256)
  output : List (Fin 256)

/-- `Engine::new`: empty tape, pointer 0, the given input, no output yet. -/
def Engine.new (input : List (Fin 256)) : Engine :=
  { tape := fun _ => 0, pointer := 0, input := input, output := [] }

/-- `Engine::move_tape`: `self.pointer += amount`. -/
def Engine.move_tape (e : Engine) (amount : Int) : Engine :=
  { e with pointer := e.pointer + amount }

/-- `Engine::get`: the byte at the current pointer (0 if unmapped). -/
def Engine.get (e : Engine) : Fin 256 :=
  e.tape e.pointer

/-- `Engine::get_rel`: the byte at `pointer + offset` (0 if unmapped). -/
def Engine.get_rel (e : Engine) (offset : Int) : Fin 256 :=
  e.tape (e.pointer + offset)

/-- `Engine::set`: store a byte at the current pointer. -/
def Engine.set (e : Engine) (value : Fin 256) : Engine :=
  { e with tape := Function.update e.tape e.pointer value }

/-- `Engine::set_rel`: store a byte at `pointer + offset`. -/
def Engine.set_rel (e : Engine) (value : Fin 256) (offset : Int) : Engine :=
  { e with tape := Function.update e.tape (e.pointer + offset) value }

/-- `Engine::write`: emit one byte to the output stream (flushed at once). -/
def Engine.write (e : Engine) (value : Fin 256) : Engine :=
  { e with output := e.output ++ [value] }

/-- `Engine::read`: take one byte from the input; `none` models the fatal
`read_exact` failure on exhausted input. -/
def Engine.read (e : Engine) : Option (Fin 256 × Engine) :=
  match e.input with
  | [] => none
  | b :: rest => some (b, { e with input := rest })

/-- `OptimizedCommand::build`, with the iterator made explicit: consumes
commands from the front of the list and returns the built nodes together
with the not-yet-consumed remainder (whose length cannot grow, recorded in
the subtype so that the recursion after a loop body terminates).  `none` is
the `io::Result` error for a loop-end with no enclosing loop-begin. -/
def buildAux : (cs : List Command) → Bool →
    Option (List OptimizedCommand × { r : List Command // r.length ≤ cs.length })
  | [], _ => some ([], ⟨[], Nat.le_refl 0⟩)
  | c :: rest, in_loop =>
    match c with
    | .Target =>
      if in_loop then some ([], ⟨rest, Nat.le_succ rest.length⟩) else none
    | .Jump =>
      match buildAux rest true with
      | none => none
      | some (body, ⟨r1, h1⟩) =>
        match buildAux r1 in_loop with
        | none => none
        | some (l, ⟨r2, h2⟩) =>
          some (.Jump (.List body) :: l,
            ⟨r2, Nat.le_succ_of_le (Nat.le_trans h2 h1)⟩)
    | c0 =>
      match buildAux rest in_loop with
      | none => none
      | some (l, ⟨r1, h1⟩) =>
        let node : OptimizedCommand :=
          match c0 with
          | .IncremenentPointer => .MovePointer 1
          | .DecrementPointer => .MovePointer (-1)
          | .IncrementValue => .AddValue 1
          | .DecrementValue => .AddValue 255
          | .Print => .Print
          | _ => .Read
        some (node :: l, ⟨r1, Nat.le_succ_of_le h1⟩)
termination_by cs => cs.length
decreasing_by
  all_goals simp_wf <;> omega

/-- The tree builder as called from `main` (and recursively): the whole
program becomes one `List` node. -/
def build (cs : List Command) (in_loop : Bool) : Option OptimizedCommand :=
  (buildAux cs in_loop).map fun p => .List p.1

/-- Size of an `Option` holding slot, for the optimizer's termination. -/
def osize : Option OptimizedCommand → Nat
  | none => 0
  | some c => csize c

theorem csize_pos (c : OptimizedCommand) : 0 < csize c := by
  cases c <;> simp [csize]

/-- The compaction at the end of `optimize_vec`: a `List` element is
replaced by its children (lists are flattened into their parent). -/
def flattenLists : List OptimizedCommand → List OptimizedCommand
  | [] => []
  | .List v :: rest => v ++ flattenLists rest
  | c :: rest => c :: flattenLists rest

mutual

/-- `OptimizedCommand::optimize`: `none` means the node contributes nothing
and is erased from its parent. -/
def optimize : OptimizedCommand → Option OptimizedCommand
  | .MovePointer d => if d = 0 then none else some (.MovePointer d)
  | .AddValue v => if v = 0 then none else some (.AddValue v)
  | .List v =>
    match v with
    | [] => none
    | hd :: tl =>
      match optimize_vec (hd :: tl) with
      | [] => none
      | [c] => some c
      | cs => some (.List cs)
  | .Jump c => optimize_jump c
  | c => some c
termination_by c => (csize c, 0, 0)
decreasing_by
  all_goals (simp_wf; simp only [Prod.lex_def]; try simp [csize, lsize, osize])
  all_goals
    first
      | omega
      | (have hp1 := csize_pos old; omega)
      | (have hp1 := csize_pos old; have hp2 := csize_pos command; omega)
      | (have hp1 := csize_pos command; omega)
      | (have hp1 := csize_pos h; omega)


/-- `OptimizedCommand::optimize_vec`: the holding-slot folding loop followed
by the list-flattening compaction. -/
def optimize_vec (v : List OptimizedCommand) : List OptimizedCommand :=
  flattenLists (ov none v)
termination_by (lsize v, v.length + 1, 2)
decreasing_by
  all_goals (simp_wf; simp only [Prod.lex_def]; try simp [csize, lsize, osize])
  all_goals
    first
      | omega
      | (have hp1 := csize_pos old; omega)
      | (have hp1 := csize_pos old; have hp2 := csize_pos command; omega)
      | (have hp1 := csize_pos command; omega)
      | (have hp1 := csize_pos h; omega)


/-- The `for command in v` loop of `optimize_vec`, with the `holding` slot
explicit.  The arms appear in the source's order.  The two scalar merges
inline `optimize` on the freshly built `AddValue`/`MovePointer` node
(which is exactly the erase-if-zero test, see `optimize_AddValue` and
`optimize_MovePointer` below). -/
def ov : Option OptimizedCommand → List OptimizedCommand → List OptimizedCommand
  | none, [] => []
  | some h, [] =>
    match optimize h with
    | some c => [c]
    | none => []
  | none, command :: rest => ov (some command) rest
  | some h, .AddValue ⟨0, _⟩ :: rest => ov (some h) rest
  | some h, .MovePointer 0 :: rest => ov (some h) rest
  | some (.SetValue a), .AddValue b :: rest => ov (some (.SetValue (a + b))) rest
  | some (.SetValue _), .SetValue v :: rest => ov (some (.SetValue v)) rest
  | some (.AddValue a), .AddValue b :: rest =>
    if a + b = 0 then ov none rest else ov (some (.AddValue (a + b))) rest
  | some (.MovePointer a), .MovePointer b :: rest =>
    if a + b = 0 then ov none rest else ov (some (.MovePointer (a + b))) rest
  | some old, command :: rest =>
    match optimize old with
    | some o => o :: ov (some command) rest
    | none => ov (some command) rest
termination_by h l => (osize h + lsize l, l.length, 3)
decreasing_by
  all_goals (simp_wf; simp only [Prod.lex_def]; try simp [csize, lsize, osize])
  all_goals
    first
      | omega
      | (have hp1 := csize_pos old; omega)
      | (have hp1 := csize_pos old; have hp2 := csize_pos command; omega)
      | (have hp1 := csize_pos command; omega)
      | (have hp1 := csize_pos h; omega)


/-- `OptimizedCommand::optimize_jump`: optimize the loop body, then
recognize the clear-loop and the copy/transfer-loop idioms. -/
def optimize_jump (inner : OptimizedCommand) : Option OptimizedCommand :=
  match optimize inner with
  | none => none
  | some c =>
    match c with
    | .AddValue ⟨1, _⟩ => some (.SetValue 0)
    | .AddValue ⟨255, _⟩ => some (.SetValue 0)
    | .List v =>
      match v with
      | [.AddValue ⟨255, _⟩, .MovePointer a, .AddValue ⟨1, _⟩, .MovePointer b] =>
        if a = -b then some (.List [.AddTo a, .SetValue 0])
        else some (.Jump (.List v))
      | [.AddValue ⟨255, _⟩, .MovePointer a, .AddValue ⟨1, _⟩, .MovePointer b,
          .AddValue ⟨1, _⟩, .MovePointer s] =>
        if a + b = -s then some (.List [.AddTo a, .AddTo (a + b), .SetValue 0])
        else some (.Jump (.List v))
      | _ => some (.Jump (.List v))
    | c0 => some (.Jump c0)
termination_by (csize inner, 0, 1)
decreasing_by
  all_goals (simp_wf; simp only [Prod.lex_def]; try simp [csize, lsize, osize])
  all_goals
    first
      | omega
      | (have hp1 := csize_pos old; omega)
      | (have hp1 := csize_pos old; have hp2 := csize_pos command; omega)
      | (have hp1 := csize_pos command; omega)
      | (have hp1 := csize_pos h; omega)


end

/-- Fuel-bounded executable interpreter for `OptimizedCommand::execute`.
`none` means the fuel ran out or a `Read` hit exhausted input. -/
def run : Nat → OptimizedCommand → Engine → Option Engine
  | 0, _, _ => none
  | fuel + 1, c, e =>
    match c with
    | .MovePointer d => some (e.move_tape d)
    | .AddValue v => some (e.set (e.get + v))
    | .SetValue v => some (e.set v)
    | .Print => some (e.write e.get)
    | .Read =>
      match e.read with
      | none => none
      | some (b, e1) => some (e1.set b)
    | .List l => l.foldlM (fun acc c0 => run fuel c0 acc) e
    | .Jump c0 =>
      if e.get = 0 then some e
      else
        match run fuel c0 e with
        | none => none
        | some e1 => run fuel (.Jump c0) e1
    | .AddTo d => some (e.set_rel (e.get + e.get_rel d) d)

/-- Big-step semantics of `OptimizedCommand::execute`: `Exec c s t` holds
when executing `c` from state `s` terminates in state `t`.  A diverging loop
or a `Read` on exhausted input admits no derivation. -/
inductive Exec : OptimizedCommand → Engine → Engine → Prop where
  | movePointer (d : Int) (e : Engine) : Exec (.MovePointer d) e (e.move_tape d)
  | addValue (v : Fin 256) (e : Engine) : Exec (.AddValue v) e (e.set (e.get + v))
  | setValue (v : Fin 256) (e : Engine) : Exec (.SetValue v) e (e.set v)
  | print (e : Engine) : Exec .Print e (e.write e.get)
  | read (b : Fin 256) (rest : List (Fin 256)) (e : Engine) :
      e.input = b :: rest → Exec .Read e (({ e with input := rest }).set b)
  | listNil (e : Engine) : Exec (.List []) e e
  | listCons {c : OptimizedCommand} {cs : List OptimizedCommand} {e m t : Engine} :
      Exec c e m → Exec (.List cs) m t → Exec (.List (c :: cs)) e t
  | jumpZero {c : OptimizedCommand} {e : Engine} :
      e.get = 0 → Exec (.Jump c) e e
  | jumpStep {c : OptimizedCommand} {e m t : Engine} :
      e.get ≠ 0 → Exec c e m → Exec (.Jump c) m t → Exec (.Jump c) e t
  | addTo (d : Int) (e : Engine) :
      Exec (.AddTo d) e (e.set_rel (e.get + e.get_rel d) d)

/-- Execution of an optional node: an erased node (`none`) is a no-op. -/
def ExecO : Option OptimizedCommand → Engine → Engine → Prop
  | none, s, t => t = s
  | some c, s, t => Exec c s t

attribute [ext] Engine

@[simp] theorem Engine.set_tape (e : Engine) (v : Fin 256) :
    (e.set v).tape = Function.update e.tape e.pointer v := rfl
@[simp] theorem Engine.set_pointer (e : Engine) (v : Fin 256) :
    (e.set v).pointer = e.pointer := rfl
@[simp] theorem Engine.set_input (e : Engine) (v : Fin 256) :
    (e.set v).input = e.input := rfl
@[simp] theorem Engine.set_output (e : Engine) (v : Fin 256) :
    (e.set v).output = e.output := rfl

@[simp] theorem Engine.set_rel_tape (e : Engine) (v : Fin 256) (d : Int) :
    (e.set_rel v d).tape = Function.update e.tape (e.pointer + d) v := rfl
@[simp] theorem Engine.set_rel_pointer (e : Engine) (v : Fin 256) (d : Int) :
    (e.set_rel v d).pointer = e.pointer := rfl
@[simp] theorem Engine.set_rel_input (e : Engine) (v : Fin 256) (d : Int) :
    (e.set_rel v d).input = e.input := rfl
@[simp] theorem Engine.set_rel_output (e : Engine) (v : Fin 256) (d : Int) :
    (e.set_rel v d).output = e.output := rfl

@[simp] theorem Engine.move_tape_tape (e : Engine) (d : Int) :
    (e.move_tape d).tape = e.tape := rfl
@[simp] theorem Engine.move_tape_pointer (e : Engine) (d : Int) :
    (e.move_tape d).pointer = e.pointer + d := rfl
@[simp] theorem Engine.move_tape_input (e : Engine) (d : Int) :
    (e.move_tape d).input = e.input := rfl
@[simp] theorem Engine.move_tape_output (e : Engine) (d : Int) :
    (e.move_tape d).output = e.output := rfl

@[simp] theorem Engine.write_tape (e : Engine) (v : Fin 256) :
    (e.write v).tape = e.tape := rfl
@[simp] theorem Engine.write_pointer (e : Engine) (v : Fin 256) :
    (e.write v).pointer = e.pointer := rfl
@[simp] theorem Engine.write_input (e : Engine) (v : Fin 256) :
    (e.write v).input = e.input := rfl
@[simp] theorem Engine.write_output (e : Engine) (v : Fin 256) :
    (e.write v).output = e.output ++ [v] := rfl

@[simp] theorem Engine.get_eq (e : Engine) : e.get = e.tape e.pointer := rfl
@[simp] theorem Engine.get_rel_eq (e : Engine) (d : Int) :
    e.get_rel d = e.tape (e.pointer + d) := rfl

theorem Engine.set_set (e : Engine) (v w : Fin 256) : (e.set v).set w = e.set w := by
  ext <;> simp [Function.update_idem]

theorem Engine.set_get_self (e : Engine) : e.set e.get = e := by
  ext <;> simp [Function.update_eq_self]

theorem Engine.set_zero_of_get_zero {e : Engine} (h : e.get = 0) : e.set 0 = e := by
  ext <;> simp_all [← h, Function.update_eq_self]

/-- `MovePointer 0` and `AddValue 0` really are no-ops. -/
theorem Engine.move_tape_zero (e : Engine) : e.move_tape 0 = e := by
  ext <;> simp

theorem Engine.add_zero_noop (e : Engine) : e.set (e.get + 0) = e := by
  rw [add_zero]; exact e.set_get_self

/-- Executing a concatenated sequence is executing its parts in order. -/
theorem exec_list_append {l1 l2 : List OptimizedCommand} {s t : Engine} :
    Exec (.List (l1 ++ l2)) s t ↔ ∃ m, Exec (.List l1) s m ∧ Exec (.List l2) m t := by
  induction l1 generalizing s with
  | nil =>
    simp only [List.nil_append]
    constructor
    · intro h; exact ⟨s, Exec.listNil s, h⟩
    · rintro ⟨m, hm, h2⟩; cases hm; exact h2
  | cons c cs ih =>
    constructor
    · intro h
      cases h with
      | listCons hc hcs =>
        rcases ih.mp hcs with ⟨m, h1, h2⟩
        exact ⟨m, Exec.listCons hc h1, h2⟩
    · rintro ⟨m, hm, h2⟩
      cases hm with
      | listCons hc hcs =>
        exact Exec.listCons hc (ih.mpr ⟨m, hcs, h2⟩)

/-- Big-step execution is deterministic. -/
theorem exec_det {c : OptimizedCommand} {s t t' : Engine}
    (h : Exec c s t) (h' : Exec c s t') : t = t' := by
  induction h generalizing t' with
  | movePointer d e => cases h'; rfl
  | addValue v e => cases h'; rfl
  | setValue v e => cases h'; rfl
  | print e => cases h'; rfl
  | read b rest e hin =>
    cases h' with
    | read b' rest' _ hin' =>
      rw [hin] at hin'
      injection hin' with hb hr
      subst hb; subst hr; rfl
  | listNil e => cases h'; rfl
  | listCons hc hcs ihc ihcs =>
    cases h' with
    | listCons hc' hcs' =>
      have hm := ihc hc'
      subst hm
      exact ihcs hcs'
  | jumpZero h0 =>
    cases h' with
    | jumpZero h0' => rfl
    | jumpStep hne _ _ => exact absurd h0 hne
  | jumpStep hne hb hrest ihb ihrest =>
    cases h' with
    | jumpZero h0 => exact absurd h0 hne
    | jumpStep hne' hb' hrest' =>
      have hm := ihb hb'
      subst hm
      exact ihrest hrest'
  | addTo d e => cases h'; rfl

/-- Sequential execution of a list through the fuel interpreter is a
big-step list execution (auxiliary to `run_sound`). -/
theorem runList_sound (f : Nat)
    (hf : ∀ c e t, run f c e = some t → Exec c e t) :
    ∀ (l : List OptimizedCommand) (e t : Engine),
      l.foldlM (fun acc c0 => run f c0 acc) e = some t → Exec (.List l) e t := by
  intro l
  induction l with
  | nil =>
    intro e t h
    simp only [List.foldlM_nil] at h
    cases h
    exact Exec.listNil _
  | cons c cs ih =>
    intro e t h
    simp only [List.foldlM_cons] at h
    rcases hr : run f c e with _ | e1
    · rw [hr] at h; cases h
    · rw [hr] at h
      exact Exec.listCons (hf c e e1 hr) (ih e1 t h)

/-- Adequacy of the interpreter: a successful fuelled run is a big-step
execution. -/
theorem run_sound : ∀ (f : Nat) (c : OptimizedCommand) (e t : Engine),
    run f c e = some t → Exec c e t := by
  intro f
  induction f with
  | zero => intro c e t h; simp [run] at h
  | succ f ih =>
    intro c e t h
    cases c with
    | MovePointer d => cases h; exact Exec.movePointer d e
    | AddValue v => cases h; exact Exec.addValue v e
    | SetValue v => cases h; exact Exec.setValue v e
    | Print => cases h; exact Exec.print e
    | Read =>
      rcases hin : e.input with _ | ⟨b, rest⟩
      · simp [run, Engine.read, hin] at h
      · simp only [run, Engine.read, hin] at h
        cases h
        exact Exec.read b rest e hin
    | List l => exact runList_sound f ih l e t h
    | Jump c0 =>
      simp only [run] at h
      split at h
      · rename_i h0
        cases h
        exact Exec.jumpZero h0
      · rename_i h0
        rcases hr : run f c0 e with _ | e1
        · rw [hr] at h; cases h
        · rw [hr] at h
          exact Exec.jumpStep h0 (ih c0 e e1 hr) (ih (.Jump c0) e1 t h)
    | AddTo d => cases h; exact Exec.addTo d e

/-- Is this node a `List` node (used for the flattening invariant)? -/
def isListNode : OptimizedCommand → Bool
  | .List _ => true
  | _ => false

mutual

/-- The structural invariants of optimizer output (spec §3): no
`AddValue 0` or `MovePointer 0` anywhere, every `List` has at least two
children, and no `List` child is itself a `List`. -/
def wf : OptimizedCommand → Bool
  | .MovePointer d => decide (d ≠ 0)
  | .AddValue v => decide (v ≠ 0)
  | .List l => decide (2 ≤ l.length) && wfList l
  | .Jump c => wf c
  | _ => true

/-- All elements are well-formed and none is directly a `List`. -/
def wfList : List OptimizedCommand → Bool
  | [] => true
  | c :: cs => !(isListNode c) && wf c && wfList cs

end

/-- Unfolding lemmas for `optimize` on each constructor. -/
theorem optimize_MovePointer (d : Int) :
    optimize (.MovePointer d) = if d = 0 then none else some (.MovePointer d) := by
  simp [optimize]

theorem optimize_AddValue (v : Fin 256) :
    optimize (.AddValue v) = if v = 0 then none else some (.AddValue v) := by
  simp [optimize]

theorem optimize_SetValue (v : Fin 256) : optimize (.SetValue v) = some (.SetValue v) := by
  simp [optimize]

theorem optimize_Print : optimize .Print = some .Print := by
  simp [optimize]

theorem optimize_Read : optimize .Read = some .Read := by
  simp [optimize]

theorem optimize_AddTo (d : Int) : optimize (.AddTo d) = some (.AddTo d) := by
  simp [optimize]

theorem optimize_Jump (c : OptimizedCommand) : optimize (.Jump c) = optimize_jump c := by
  simp [optimize]

theorem optimize_List_nil : optimize (.List []) = none := by
  simp [optimize]

theorem optimize_List_cons (hd : OptimizedCommand) (tl : List OptimizedCommand) :
    optimize (.List (hd :: tl)) =
      match optimize_vec (hd :: tl) with
      | [] => none
      | [c] => some c
      | cs => some (.List cs) := by
  rw [optimize]

theorem optimize_vec_eq (v : List OptimizedCommand) :
    optimize_vec v = flattenLists (ov none v) := by
  rw [optimize_vec]

/-- Case evaluation lemmas for the `ov` holding-slot loop. -/
theorem ov_none_nil : ov none [] = [] := by
  simp [ov]

theorem ov_some_nil_some {h c : OptimizedCommand} (ho : optimize h = some c) :
    ov (some h) [] = [c] := by
  simp [ov, ho]

theorem ov_some_nil_none {h : OptimizedCommand} (ho : optimize h = none) :
    ov (some h) [] = [] := by
  simp [ov, ho]

theorem ov_none_cons (c : OptimizedCommand) (rest : List OptimizedCommand) :
    ov none (c :: rest) = ov (some c) rest := by
  simp [ov]

theorem ov_skip_addzero (h : OptimizedCommand) (rest : List OptimizedCommand) :
    ov (some h) (.AddValue 0 :: rest) = ov (some h) rest := by
  rw [ov.eq_def]
  split
  all_goals try injections
  all_goals try subst_vars
  all_goals try rfl
  all_goals simp_all [Fin.ext_iff]

theorem ov_skip_movezero (h : OptimizedCommand) (rest : List OptimizedCommand) :
    ov (some h) (.MovePointer 0 :: rest) = ov (some h) rest := by
  simp [ov]

theorem ov_merge_sv_av {b : Fin 256} (a : Fin 256) (rest : List OptimizedCommand)
    (hb : b ≠ 0) :
    ov (some (.SetValue a)) (.AddValue b :: rest) = ov (some (.SetValue (a + b))) rest := by
  simp [ov, hb]

theorem ov_merge_sv_sv (a v : Fin 256) (rest : List OptimizedCommand) :
    ov (some (.SetValue a)) (.SetValue v :: rest) = ov (some (.SetValue v)) rest := by
  simp [ov]

theorem ov_merge_av_av {b : Fin 256} (a : Fin 256) (rest : List OptimizedCommand)
    (hb : b ≠ 0) :
    ov (some (.AddValue a)) (.AddValue b :: rest) =
      if a + b = 0 then ov none rest else ov (some (.AddValue (a + b))) rest := by
  simp [ov, hb]

theorem ov_merge_mp_mp {b : Int} (a : Int) (rest : List OptimizedCommand)
    (hb : b ≠ 0) :
    ov (some (.MovePointer a)) (.MovePointer b :: rest) =
      if a + b = 0 then ov none rest else ov (some (.MovePointer (a + b))) rest := by
  simp [ov, hb]

/-- The last arm of the holding loop applies: no earlier arm matches the
pair (holding, next command), so the held node is optimized and flushed. -/
def Flushes (old command : OptimizedCommand) : Prop :=
  command ≠ .AddValue 0 ∧ command ≠ .MovePointer 0 ∧
  (∀ a b : Fin 256, old = .SetValue a → command ≠ .AddValue b) ∧
  (∀ a v : Fin 256, old = .SetValue a → command ≠ .SetValue v) ∧
  (∀ a b : Fin 256, old = .AddValue a → command ≠ .AddValue b) ∧
  (∀ a b : Int, old = .MovePointer a → command ≠ .MovePointer b)

theorem ov_flush {old command : OptimizedCommand} (rest : List OptimizedCommand)
    (hfl : Flushes old command) :
    ov (some old) (command :: rest) =
      match optimize old with
      | some o => o :: ov (some command) rest
      | none => ov (some command) rest := by
  obtain ⟨h1, h2, h3, h4, h5, h6⟩ := hfl
  rw [ov.eq_def]
  split
  all_goals try injections
  all_goals try subst_vars
  · exact absurd (by norm_num [Fin.ext_iff]) h1
  · exact absurd rfl h2
  · exact (h3 _ _ rfl rfl).elim
  · exact (h4 _ _ rfl rfl).elim
  · exact (h5 _ _ rfl rfl).elim
  · exact (h6 _ _ rfl rfl).elim
  · rfl

/-- A `Jump` whose body never changes the state only terminates with the
state unchanged. -/
theorem jump_noop_aux : ∀ {j : OptimizedCommand} {s t : Engine}, Exec j s t →
    ∀ c : OptimizedCommand, j = .Jump c → (∀ u v, Exec c u v → v = u) → t = s := by
  intro j s t h
  induction h
  case jumpZero => intro c hj hb; rfl
  case jumpStep hne hbody hrest ihb ihrest =>
    intro c hj hb
    injection hj with hc
    subst hc
    have hm := hb _ _ hbody
    subst hm
    exact ihrest _ rfl hb
  all_goals intro c hj hb
  all_goals simp at hj

/-- Replacing a loop body by an execution-equivalent one preserves the
loop's executions. -/
theorem jump_congr_aux : ∀ {j : OptimizedCommand} {s t : Engine}, Exec j s t →
    ∀ c c' : OptimizedCommand, j = .Jump c → (∀ u v, Exec c u v → Exec c' u v) →
    Exec (.Jump c') s t := by
  intro j s t h
  induction h
  case jumpZero h0 => intro c c' hj hb; exact Exec.jumpZero h0
  case jumpStep hne hbody hrest ihb ihrest =>
    intro c c' hj hb
    injection hj with hc
    subst hc
    exact Exec.jumpStep hne (hb _ _ hbody) (ihrest _ _ rfl hb)
  all_goals intro c c' hj hb
  all_goals simp at hj

/-- A loop whose body only adds a constant to the current cell can only
terminate with that cell cleared, everything else untouched. -/
theorem jump_clear_aux : ∀ {j : OptimizedCommand} {s t : Engine}, Exec j s t →
    ∀ (c : OptimizedCommand) (k : Fin 256), j = .Jump c →
    (∀ u v, Exec c u v → v = u.set (u.get + k)) → t = s.set 0 := by
  intro j s t h
  induction h
  case jumpZero h0 => intro c k hj hb; exact (Engine.set_zero_of_get_zero h0).symm
  case jumpStep hne hbody hrest ihb ihrest =>
    intro c k hj hb
    injection hj with hc
    subst hc
    have hm := hb _ _ hbody
    subst hm
    rw [ihrest _ k rfl hb, Engine.set_set]
  all_goals intro c k hj hb
  all_goals simp at hj

@[simp] theorem fin255_val : (255 : Fin 256).val = 255 := rfl
@[simp] theorem fin1_val : (1 : Fin 256).val = 1 := rfl
@[simp] theorem fin0_val : (0 : Fin 256).val = 0 := rfl

/-- Inverting the execution of the four-node copy-loop body. -/
theorem exec_quad_inv {a b : Int} {u v : Engine}
    (h : Exec (.List [.AddValue 255, .MovePointer a, .AddValue 1, .MovePointer b]) u v) :
    v = (((u.set (u.get + 255)).move_tape a).set
          (((u.set (u.get + 255)).move_tape a).get + 1)).move_tape b := by
  cases h with
  | listCons h1 hr1 =>
    cases h1
    cases hr1 with
    | listCons h2 hr2 =>
      cases h2
      cases hr2 with
      | listCons h3 hr3 =>
        cases h3
        cases hr3 with
        | listCons h4 hr4 =>
          cases h4
          cases hr4
          rfl

/-- The copy-and-clear loop: if the optimized body is exactly
`[-1, move a, +1, move b]` with `a = -b`, any terminating run of the loop
ends in the state produced by `AddTo a` then `SetValue 0`. -/
theorem jump_addto_aux : ∀ {j : OptimizedCommand} {s t : Engine}, Exec j s t →
    ∀ (c : OptimizedCommand) (a b : Int), j = .Jump c → a = -b → a ≠ 0 →
    (∀ u v, Exec c u v →
      Exec (.List [.AddValue 255, .MovePointer a, .AddValue 1, .MovePointer b]) u v) →
    t = (s.set_rel (s.get + s.get_rel a) a).set 0 := by
  intro j s t h
  induction h
  case jumpZero e h0 =>
    intro c a b hj hab ha hbody4
    have h1 : e.set_rel (e.get + e.get_rel a) a = e := by
      apply Engine.ext
      · show Function.update _ _ _ = _
        rw [h0, zero_add, Engine.get_rel_eq]
        exact Function.update_eq_self _ _
      · rfl
      · rfl
      · rfl
    rw [h1, Engine.set_zero_of_get_zero h0]
  case jumpStep e m t hne hbody hrest ihb ihrest =>
    intro c a b hj hab ha hbody4
    injection hj with hc
    subst hc
    subst hab
    have hm := exec_quad_inv (hbody4 _ _ hbody)
    have hAp : e.pointer + -b ≠ e.pointer := by omega
    have hmid : ((e.set (e.get + 255)).move_tape (-b)).get = e.tape (e.pointer + -b) := by
      rw [Engine.get_eq, Engine.move_tape_tape, Engine.move_tape_pointer,
        Engine.set_tape, Engine.set_pointer]
      exact Function.update_noteq hAp _ _
    have hmtape : m.tape =
        Function.update (Function.update e.tape e.pointer (e.get + 255))
          (e.pointer + -b) (e.tape (e.pointer + -b) + 1) := by
      rw [hm]
      simp only [Engine.move_tape_tape, Engine.set_tape, Engine.move_tape_pointer,
        Engine.set_pointer, hmid]
    have hmptr : m.pointer = e.pointer := by
      rw [hm]; simp
    have hmin : m.input = e.input := by rw [hm]; simp
    have hmout : m.output = e.output := by rw [hm]; simp
    have hmget : m.get = e.get + 255 := by
      rw [Engine.get_eq, hmtape, hmptr, Function.update_noteq (Ne.symm hAp),
        Function.update_same]
    have hmgetrel : m.get_rel (-b) = e.tape (e.pointer + -b) + 1 := by
      rw [Engine.get_rel_eq, hmtape, hmptr, Function.update_same]
    rw [ihrest _ (-b) b rfl rfl ha hbody4]
    apply Engine.ext
    · rw [Engine.set_tape, Engine.set_tape, Engine.set_rel_tape, Engine.set_rel_tape,
        Engine.set_rel_pointer, Engine.set_rel_pointer, hmptr, hmtape, hmget, hmgetrel,
        Engine.get_rel_eq, Function.update_idem]
      have hval : e.get + 255 + (e.tape (e.pointer + -b) + 1)
          = e.get + e.tape (e.pointer + -b) := by
        simp [Fin.ext_iff, Fin.val_add]
        omega
      rw [hval, Function.update_comm hAp]
      rw [Function.update_idem, Function.update_comm hAp]
    · rw [Engine.set_pointer, Engine.set_pointer, Engine.set_rel_pointer,
        Engine.set_rel_pointer, hmptr]
    · rw [Engine.set_input, Engine.set_input, Engine.set_rel_input,
        Engine.set_rel_input, hmin]
    · rw [Engine.set_output, Engine.set_output, Engine.set_rel_output,
        Engine.set_rel_output, hmout]
  all_goals intro c a b hj hab ha hbody4
  all_goals simp at hj

/-- Inverting the execution of the six-node two-target copy-loop body. -/
theorem exec_six_inv {a b s' : Int} {u v : Engine}
    (h : Exec (.List [.AddValue 255, .MovePointer a, .AddValue 1, .MovePointer b,
          .AddValue 1, .MovePointer s']) u v) :
    v = (let e1 := u.set (u.get + 255)
         let e2 := e1.move_tape a
         let e3 := e2.set (e2.get + 1)
         let e4 := e3.move_tape b
         let e5 := e4.set (e4.get + 1)
         e5.move_tape s') := by
  cases h with
  | listCons h1 hr1 =>
    cases h1
    cases hr1 with
    | listCons h2 hr2 =>
      cases h2
      cases hr2 with
      | listCons h3 hr3 =>
        cases h3
        cases hr3 with
        | listCons h4 hr4 =>
          cases h4
          cases hr4 with
          | listCons h5 hr5 =>
            cases h5
            cases hr5 with
            | listCons h6 hr6 =>
              cases h6
              cases hr6
              rfl

/-- The two-target transfer loop: if the optimized body is exactly
`[-1, move a, +1, move b, +1, move s]` with `a + b = -s`, any terminating
run of the loop ends in the state of `AddTo a`, `AddTo (a+b)`, `SetValue 0`. -/
theorem jump_addto2_aux : ∀ {j : OptimizedCommand} {s t : Engine}, Exec j s t →
    ∀ (c : OptimizedCommand) (a b s' : Int), j = .Jump c → a + b = -s' →
    a ≠ 0 → b ≠ 0 → a + b ≠ 0 →
    (∀ u v, Exec c u v → Exec (.List [.AddValue 255, .MovePointer a, .AddValue 1,
        .MovePointer b, .AddValue 1, .MovePointer s']) u v) →
    t = ((s.set_rel (s.get + s.get_rel a) a).set_rel
          ((s.set_rel (s.get + s.get_rel a) a).get +
           (s.set_rel (s.get + s.get_rel a) a).get_rel (a + b)) (a + b)).set 0 := by
  intro j s t h
  induction h
  case jumpZero e h0 =>
    intro c a b s' hj hs ha hb hab hbody6
    have h1 : e.set_rel (e.get + e.get_rel a) a = e := by
      apply Engine.ext
      · show Function.update _ _ _ = _
        rw [h0, zero_add, Engine.get_rel_eq]
        exact Function.update_eq_self _ _
      · rfl
      · rfl
      · rfl
    rw [h1]
    have h2 : e.set_rel (e.get + e.get_rel (a + b)) (a + b) = e := by
      apply Engine.ext
      · show Function.update _ _ _ = _
        rw [h0, zero_add, Engine.get_rel_eq]
        exact Function.update_eq_self _ _
      · rfl
      · rfl
      · rfl
    rw [h2, Engine.set_zero_of_get_zero h0]
  case jumpStep e m t hne hbody hrest ihb ihrest =>
    intro c a b s' hj hs ha hb hab hbody6
    injection hj with hc
    subst hc
    have hm := exec_six_inv (hbody6 _ _ hbody)
    simp only at hm
    have hmid1 : ((e.set (e.get + 255)).move_tape a).get = e.tape (e.pointer + a) := by
      rw [Engine.get_eq, Engine.move_tape_tape, Engine.move_tape_pointer,
        Engine.set_tape, Engine.set_pointer]
      exact Function.update_noteq (by omega) _ _
    have hmid2 : ((((e.set (e.get + 255)).move_tape a).set
          (((e.set (e.get + 255)).move_tape a).get + 1)).move_tape b).get
        = e.tape (e.pointer + a + b) := by
      rw [Engine.get_eq, Engine.move_tape_tape, Engine.move_tape_pointer,
        Engine.set_tape, Engine.set_pointer, Engine.move_tape_tape,
        Engine.move_tape_pointer, Engine.set_tape, Engine.set_pointer,
        Function.update_noteq (by omega), Function.update_noteq (by omega)]
    rw [hmid1] at hmid2
    have hmtape : m.tape =
        Function.update (Function.update (Function.update e.tape
          e.pointer (e.get + 255))
          (e.pointer + a) (e.tape (e.pointer + a) + 1))
          (e.pointer + a + b) (e.tape (e.pointer + a + b) + 1) := by
      rw [hm]
      simp only [Engine.move_tape_tape, Engine.set_tape, Engine.move_tape_pointer,
        Engine.set_pointer, hmid1]
      rw [hmid2]
    have hmptr : m.pointer = e.pointer := by
      rw [hm]
      simp only [Engine.move_tape_pointer, Engine.set_pointer]
      omega
    have hmin : m.input = e.input := by rw [hm]; simp
    have hmout : m.output = e.output := by rw [hm]; simp
    rw [ihrest _ a b s' rfl hs ha hb hab hbody6]
    have hadd : e.pointer + (a + b) = e.pointer + a + b := by omega
    have evalp : (Function.update (Function.update (Function.update e.tape
        e.pointer (e.get + 255))
        (e.pointer + a) (e.tape (e.pointer + a) + 1))
        (e.pointer + a + b) (e.tape (e.pointer + a + b) + 1)) e.pointer
        = e.get + 255 := by
      rw [Function.update_noteq (by omega), Function.update_noteq (by omega),
        Function.update_same]
    have evalA : (Function.update (Function.update (Function.update e.tape
        e.pointer (e.get + 255))
        (e.pointer + a) (e.tape (e.pointer + a) + 1))
        (e.pointer + a + b) (e.tape (e.pointer + a + b) + 1)) (e.pointer + a)
        = e.tape (e.pointer + a) + 1 := by
      rw [Function.update_noteq (by omega), Function.update_same]
    have evalB : (Function.update (Function.update (Function.update e.tape
        e.pointer (e.get + 255))
        (e.pointer + a) (e.tape (e.pointer + a) + 1))
        (e.pointer + a + b) (e.tape (e.pointer + a + b) + 1)) (e.pointer + a + b)
        = e.tape (e.pointer + a + b) + 1 := by
      rw [Function.update_same]
    apply Engine.ext
    · simp only [Engine.set_tape, Engine.set_rel_tape, Engine.set_rel_pointer,
        Engine.set_pointer, Engine.get_eq, Engine.get_rel_eq, hmtape, hmptr, hadd,
        Engine.get_eq] at evalp evalA evalB ⊢
      simp only [hmptr, Function.update_noteq (show e.pointer ≠ e.pointer + a by omega),
        Function.update_noteq (show e.pointer + a + b ≠ e.pointer + a by omega),
        Function.update_same, evalp, evalA, evalB]
      have hval1 : e.tape e.pointer + 255 + (e.tape (e.pointer + a) + 1)
          = e.tape e.pointer + e.tape (e.pointer + a) := by
        simp only [Fin.ext_iff, Fin.val_add, fin255_val, fin1_val]
        omega
      have hval2 : e.tape e.pointer + 255 + (e.tape (e.pointer + a + b) + 1)
          = e.tape e.pointer + e.tape (e.pointer + a + b) := by
        simp only [Fin.ext_iff, Fin.val_add, fin255_val, fin1_val]
        omega
      rw [show m.pointer + a = e.pointer + a from by rw [hmptr]]
      simp only [Function.update_noteq (show e.pointer ≠ e.pointer + a by omega),
        Function.update_noteq (show e.pointer + a + b ≠ e.pointer + a by omega),
        Function.update_same, evalp, evalA, evalB]
      rw [hval1, hval2]
      funext q
      by_cases hq1 : q = e.pointer
      · subst hq1
        rw [Function.update_same, Function.update_same]
      · rw [Function.update_noteq hq1, Function.update_noteq hq1]
        by_cases hq2 : q = e.pointer + a + b
        · subst hq2
          rw [Function.update_same, Function.update_same]
        · rw [Function.update_noteq hq2, Function.update_noteq hq2]
          by_cases hq3 : q = e.pointer + a
          · subst hq3
            rw [Function.update_same, Function.update_same]
          · rw [Function.update_noteq hq3, Function.update_noteq hq3,
              Function.update_noteq hq2, Function.update_noteq hq3,
              Function.update_noteq hq1]
    · simp only [Engine.set_pointer, Engine.set_rel_pointer, hmptr]
    · simp only [Engine.set_input, Engine.set_rel_input, hmin]
    · simp only [Engine.set_output, Engine.set_rel_output, hmout]
  all_goals intro c a b s' hj hs ha hb hab hbody6
  all_goals simp at hj

/-- Scalar nodes: the merge results the holding loop can fabricate. -/
def isScalar : OptimizedCommand → Bool
  | .MovePointer _ => true
  | .AddValue _ => true
  | .SetValue _ => true
  | _ => false

/-- One step of the holding loop: exactly one of the source's match arms
applies, and this lemma tells which and what the loop computes. -/
theorem ov_cons_cases (hc command : OptimizedCommand) (rest : List OptimizedCommand) :
    ov (some hc) (command :: rest) = ov (some hc) rest
      ∧ (command = .AddValue 0 ∨ command = .MovePointer 0)
  ∨ (∃ a b, hc = .SetValue a ∧ command = .AddValue b ∧ b ≠ 0
      ∧ ov (some hc) (command :: rest) = ov (some (.SetValue (a + b))) rest)
  ∨ (∃ a v, hc = .SetValue a ∧ command = .SetValue v
      ∧ ov (some hc) (command :: rest) = ov (some (.SetValue v)) rest)
  ∨ (∃ a b, hc = .AddValue a ∧ command = .AddValue b ∧ b ≠ 0
      ∧ ov (some hc) (command :: rest)
        = if a + b = 0 then ov none rest else ov (some (.AddValue (a + b))) rest)
  ∨ (∃ a b, hc = .MovePointer a ∧ command = .MovePointer b ∧ b ≠ 0
      ∧ ov (some hc) (command :: rest)
        = if a + b = 0 then ov none rest else ov (some (.MovePointer (a + b))) rest)
  ∨ (Flushes hc command
      ∧ ov (some hc) (command :: rest)
        = match optimize hc with
          | some o => o :: ov (some command) rest
          | none => ov (some command) rest) := by
  cases command with
  | AddValue b =>
    by_cases hb : b = 0
    · subst hb
      exact Or.inl ⟨ov_skip_addzero hc rest, Or.inl rfl⟩
    · cases hc <;>
        first
          | exact Or.inr (Or.inl ⟨_, b, rfl, rfl, hb, ov_merge_sv_av _ rest hb⟩)
          | exact Or.inr (Or.inr (Or.inr (Or.inl
              ⟨_, b, rfl, rfl, hb, ov_merge_av_av _ rest hb⟩)))
          | (refine Or.inr (Or.inr (Or.inr (Or.inr (Or.inr
              ((fun hf => ⟨hf, ov_flush rest hf⟩) ?_)))))
             refine ⟨?_, ?_, ?_, ?_, ?_, ?_⟩ <;> intros <;> simp_all)
  | MovePointer b =>
    by_cases hb : b = 0
    · subst hb
      exact Or.inl ⟨ov_skip_movezero hc rest, Or.inr rfl⟩
    · cases hc <;>
        first
          | exact Or.inr (Or.inr (Or.inr (Or.inr (Or.inl
              ⟨_, b, rfl, rfl, hb, ov_merge_mp_mp _ rest hb⟩))))
          | (refine Or.inr (Or.inr (Or.inr (Or.inr (Or.inr
              ((fun hf => ⟨hf, ov_flush rest hf⟩) ?_)))))
             refine ⟨?_, ?_, ?_, ?_, ?_, ?_⟩ <;> intros <;> simp_all)
  | SetValue v =>
    cases hc <;>
      first
        | exact Or.inr (Or.inr (Or.inl ⟨_, v, rfl, rfl, ov_merge_sv_sv _ v rest⟩))
        | (refine Or.inr (Or.inr (Or.inr (Or.inr (Or.inr
            ((fun hf => ⟨hf, ov_flush rest hf⟩) ?_)))))
           refine ⟨?_, ?_, ?_, ?_, ?_, ?_⟩ <;> intros <;> simp_all)
  | Print =>
    refine Or.inr (Or.inr (Or.inr (Or.inr (Or.inr ?_))))
    have hf : Flushes hc .Print := by
      refine ⟨?_, ?_, ?_, ?_, ?_, ?_⟩ <;> intros <;> simp_all
    exact ⟨hf, ov_flush rest hf⟩
  | Read =>
    refine Or.inr (Or.inr (Or.inr (Or.inr (Or.inr ?_))))
    have hf : Flushes hc .Read := by
      refine ⟨?_, ?_, ?_, ?_, ?_, ?_⟩ <;> intros <;> simp_all
    exact ⟨hf, ov_flush rest hf⟩
  | List v =>
    refine Or.inr (Or.inr (Or.inr (Or.inr (Or.inr ?_))))
    have hf : Flushes hc (.List v) := by
      refine ⟨?_, ?_, ?_, ?_, ?_, ?_⟩ <;> intros <;> simp_all
    exact ⟨hf, ov_flush rest hf⟩
  | Jump c0 =>
    refine Or.inr (Or.inr (Or.inr (Or.inr (Or.inr ?_))))
    have hf : Flushes hc (.Jump c0) := by
      refine ⟨?_, ?_, ?_, ?_, ?_, ?_⟩ <;> intros <;> simp_all
    exact ⟨hf, ov_flush rest hf⟩
  | AddTo d =>
    refine Or.inr (Or.inr (Or.inr (Or.inr (Or.inr ?_))))
    have hf : Flushes hc (.AddTo d) := by
      refine ⟨?_, ?_, ?_, ?_, ?_, ?_⟩ <;> intros <;> simp_all
    exact ⟨hf, ov_flush rest hf⟩

/-- Soundness of optimization at a node: every terminating execution of the
node is a terminating execution of its optimized form (erasure = no-op). -/
def Sound (c : OptimizedCommand) : Prop :=
  ∀ s t : Engine, Exec c s t → ExecO (optimize c) s t

theorem sound_SetValue (v : Fin 256) : Sound (.SetValue v) := by
  intro s t h
  rw [optimize_SetValue]
  exact h

theorem sound_AddValue (v : Fin 256) : Sound (.AddValue v) := by
  intro s t h
  rw [optimize_AddValue]
  by_cases hv : v = 0
  · subst hv
    rw [if_pos rfl]
    cases h
    exact Engine.add_zero_noop s
  · rw [if_neg hv]
    exact h

theorem sound_MovePointer (d : Int) : Sound (.MovePointer d) := by
  intro s t h
  rw [optimize_MovePointer]
  by_cases hd : d = 0
  · subst hd
    rw [if_pos rfl]
    cases h
    exact Engine.move_tape_zero s
  · rw [if_neg hd]
    exact h

/-- Flattening nested lists preserves execution. -/
theorem flatten_sound : ∀ (l : List OptimizedCommand) (s t : Engine),
    Exec (.List l) s t → Exec (.List (flattenLists l)) s t := by
  intro l
  induction l with
  | nil => intro s t h; exact h
  | cons c rest ih =>
    intro s t h
    cases h with
    | listCons h1 h2 =>
      cases c
      case List v =>
        exact exec_list_append.mpr ⟨_, h1, ih _ _ h2⟩
      all_goals exact Exec.listCons h1 (ih _ _ h2)

/-- Membership characterization of the holding loop's output: every element
is the `optimize`-image of an input node, the held node, or a scalar. -/
theorem ov_mem : ∀ (l : List OptimizedCommand) (h : Option OptimizedCommand)
    (x : OptimizedCommand), x ∈ ov h l →
    ∃ y, optimize y = some x ∧ (y ∈ l ∨ h = some y ∨ isScalar y = true) := by
  intro l
  induction l with
  | nil =>
    intro h x hx
    cases h with
    | none => rw [ov_none_nil] at hx; simp at hx
    | some hc =>
      rcases ho : optimize hc with _ | c
      · rw [ov_some_nil_none ho] at hx; simp at hx
      · rw [ov_some_nil_some ho] at hx
        simp at hx
        subst hx
        exact ⟨hc, ho, Or.inr (Or.inl rfl)⟩
  | cons command rest ih =>
    intro h x hx
    cases h with
    | none =>
      rw [ov_none_cons] at hx
      rcases ih (some command) x hx with ⟨y, hy, hloc⟩
      refine ⟨y, hy, ?_⟩
      rcases hloc with h1 | h2 | h3
      · exact Or.inl (List.mem_cons_of_mem _ h1)
      · injection h2 with h2
        exact Or.inl (h2 ▸ List.mem_cons_self _ _)
      · exact Or.inr (Or.inr h3)
    | some hc =>
      have htail : ∀ (h2 : Option OptimizedCommand), (∀ z, h2 = some z →
            z ∈ (command :: rest) ∨ hc = z ∨ isScalar z = true) →
          x ∈ ov h2 rest →
          ∃ y, optimize y = some x ∧
            (y ∈ command :: rest ∨ some hc = some y ∨ isScalar y = true) := by
        intro h2 hz hx2
        rcases ih h2 x hx2 with ⟨y, hy, hloc⟩
        refine ⟨y, hy, ?_⟩
        rcases hloc with h1 | h1 | h1
        · exact Or.inl (List.mem_cons_of_mem _ h1)
        · rcases hz y h1 with hz1 | hz1 | hz1
          · exact Or.inl hz1
          · exact Or.inr (Or.inl (by rw [hz1]))
          · exact Or.inr (Or.inr hz1)
        · exact Or.inr (Or.inr h1)
      rcases ov_cons_cases hc command rest with
        ⟨heq, _⟩ | ⟨a, b, h1, h2, hb, heq⟩ | ⟨a, v, h1, h2, heq⟩ |
        ⟨a, b, h1, h2, hb, heq⟩ | ⟨a, b, h1, h2, hb, heq⟩ | ⟨hfl, heq⟩
      · rw [heq] at hx
        exact htail (some hc) (by intro z hz; injection hz with hz; exact Or.inr (Or.inl hz)) hx
      · rw [heq] at hx
        exact htail _ (by intro z hz; injection hz with hz; subst hz; exact Or.inr (Or.inr rfl)) hx
      · rw [heq] at hx
        exact htail _ (by intro z hz; injection hz with hz; subst hz; exact Or.inr (Or.inr rfl)) hx
      · rw [heq] at hx
        split at hx
        · exact htail none (by intro z hz; cases hz) hx
        · exact htail _ (by intro z hz; injection hz with hz; subst hz; exact Or.inr (Or.inr rfl)) hx
      · rw [heq] at hx
        split at hx
        · exact htail none (by intro z hz; cases hz) hx
        · exact htail _ (by intro z hz; injection hz with hz; subst hz; exact Or.inr (Or.inr rfl)) hx
      · rw [heq] at hx
        rcases ho : optimize hc with _ | o
        · rw [ho] at hx
          exact htail (some command)
            (by intro z hz; injection hz with hz; exact Or.inl (hz ▸ List.mem_cons_self _ _)) hx
        · rw [ho] at hx
          rcases List.mem_cons.mp hx with hx1 | hx1
          · subst hx1
            exact ⟨hc, ho, Or.inr (Or.inl rfl)⟩
          · exact htail (some command)
              (by intro z hz; injection hz with hz; exact Or.inl (hz ▸ List.mem_cons_self _ _)) hx1

theorem wfList_eq : ∀ l : List OptimizedCommand,
    wfList l = true ↔ ∀ c ∈ l, isListNode c = false ∧ wf c = true := by
  intro l
  induction l with
  | nil => simp [wfList]
  | cons c rest ih =>
    first
      | (simp [wfList, ih]; done)
      | (simp [wfList, ih]; tauto)

theorem csize_le_of_mem : ∀ {l : List OptimizedCommand} {c : OptimizedCommand},
    c ∈ l → csize c ≤ lsize l := by
  intro l
  induction l with
  | nil => intro c h; simp at h
  | cons c0 rest ih =>
    intro c h
    rcases List.mem_cons.mp h with h1 | h1
    · subst h1
      first
        | (simp [lsize]; done)
        | (simp [lsize]; omega)
    · have := ih h1
      simp [lsize]
      omega

theorem optimize_scalar_wf {y x : OptimizedCommand} (hs : isScalar y = true)
    (ho : optimize y = some x) : wf x = true := by
  cases y with
  | MovePointer d =>
    rw [optimize_MovePointer] at ho
    split at ho
    · cases ho
    · injection ho with ho
      subst ho
      simp_all [wf]
  | AddValue v =>
    rw [optimize_AddValue] at ho
    split at ho
    · cases ho
    · injection ho with ho
      subst ho
      simp_all [wf]
  | SetValue v =>
    rw [optimize_SetValue] at ho
    injection ho with ho
    subst ho
    simp [wf]
  | _ => simp [isScalar] at hs

theorem flatten_wf : ∀ (out : List OptimizedCommand),
    (∀ x ∈ out, wf x = true) →
    ∀ z ∈ flattenLists out, isListNode z = false ∧ wf z = true := by
  intro out
  induction out with
  | nil => intro hall z hz; simp [flattenLists] at hz
  | cons c rest ih =>
    intro hall z hz
    cases c
    case List v =>
      rw [show flattenLists (.List v :: rest) = v ++ flattenLists rest from rfl] at hz
      rcases List.mem_append.mp hz with h1 | h1
      · have hwfl := hall _ (List.mem_cons_self _ _)
        simp only [wf, Bool.and_eq_true, decide_eq_true_eq] at hwfl
        exact (wfList_eq v).mp hwfl.2 z h1
      · exact ih (fun x hx => hall x (List.mem_cons_of_mem _ hx)) z h1
    all_goals
      rcases List.mem_cons.mp hz with h1 | h1
    all_goals
      first
        | (subst h1
           exact ⟨rfl, hall _ (List.mem_cons_self _ _)⟩)
        | exact ih (fun x hx => hall x (List.mem_cons_of_mem _ hx)) z h1

/-- Output invariants of `optimize` (C7): by strong induction on size. -/
theorem optimize_wf_aux : ∀ (n : Nat) (c : OptimizedCommand), csize c ≤ n →
    ∀ c', optimize c = some c' → wf c' = true := by
  intro n
  induction n with
  | zero =>
    intro c hc
    have := csize_pos c
    omega
  | succ n ih =>
    intro c hc c' ho
    cases c with
    | MovePointer d => exact optimize_scalar_wf (by rfl) ho
    | AddValue v => exact optimize_scalar_wf (by rfl) ho
    | SetValue v => exact optimize_scalar_wf (by rfl) ho
    | Print =>
      rw [optimize_Print] at ho
      injection ho with ho
      subst ho
      simp [wf]
    | Read =>
      rw [optimize_Read] at ho
      injection ho with ho
      subst ho
      simp [wf]
    | AddTo d =>
      rw [optimize_AddTo] at ho
      injection ho with ho
      subst ho
      simp [wf]
    | List l =>
      cases l with
      | nil => rw [optimize_List_nil] at ho; cases ho
      | cons hd tl =>
        rw [optimize_List_cons] at ho
        have hmemwf : ∀ z ∈ optimize_vec (hd :: tl),
            isListNode z = false ∧ wf z = true := by
          rw [optimize_vec_eq]
          apply flatten_wf
          intro x hx
          rcases ov_mem _ _ _ hx with ⟨y, hy, hloc⟩
          rcases hloc with h1 | h1 | h1
          · have hsz : csize y ≤ n := by
              have h2 := csize_le_of_mem h1
              simp only [csize] at hc
              simp only [lsize] at h2 hc
              omega
            exact ih y hsz x hy
          · cases h1
          · exact optimize_scalar_wf h1 hy
        rcases hov : optimize_vec (hd :: tl) with _ | ⟨c1, rest1⟩
        · rw [hov] at ho; cases ho
        · rw [hov] at ho
          rcases rest1 with _ | ⟨c2, rest2⟩
          · have ho' : some c1 = some c' := ho
            injection ho' with ho'
            subst ho'
            exact (hmemwf _ (by rw [hov]; exact List.mem_cons_self _ _)).2
          · have ho' : some (OptimizedCommand.List (c1 :: c2 :: rest2)) = some c' := ho
            injection ho' with ho'
            subst ho'
            simp only [wf, Bool.and_eq_true, decide_eq_true_eq]
            constructor
            · simp
            · rw [wfList_eq]
              intro z hz
              exact hmemwf z (by rw [hov]; exact hz)
    | Jump c0 =>
      rw [optimize_Jump] at ho
      have hszc0 : csize c0 ≤ n := by
        simp only [csize] at hc
        omega
      rcases hoc : optimize c0 with _ | c1
      · simp only [optimize_jump, hoc] at ho
        cases ho
      · simp only [optimize_jump, hoc] at ho
        have hwfc1 : wf c1 = true := ih c0 hszc0 c1 hoc
        split at ho
        · injection ho with ho; subst ho; simp [wf]
        · injection ho with ho; subst ho; simp [wf]
        · -- the List shapes
          rename_i v
          split at ho
          · rename_i a b
            split at ho
            · injection ho with ho; subst ho
              simp [wf, wfList, isListNode]
            · injection ho with ho; subst ho
              simp only [wf]
              exact hwfc1
          · rename_i a b s'
            split at ho
            · injection ho with ho; subst ho
              simp [wf, wfList, isListNode]
            · injection ho with ho; subst ho
              simp only [wf]
              exact hwfc1
          · injection ho with ho; subst ho
            simp only [wf]
            exact hwfc1
        · injection ho with ho; subst ho
          simp only [wf]
          exact hwfc1

/-- Output invariants of `optimize` (C7). -/
theorem optimize_wf {c c' : OptimizedCommand} (ho : optimize c = some c') :
    wf c' = true :=
  optimize_wf_aux (csize c) c (Nat.le_refl _) c' ho

theorem lsize_append : ∀ (a b : List OptimizedCommand),
    lsize (a ++ b) = lsize a + lsize b := by
  intro a b
  induction a with
  | nil => simp [lsize]
  | cons c rest ih => simp [lsize, ih]; omega

theorem flattenLists_cons_nonlist {c : OptimizedCommand} (hc : isListNode c = false)
    (rest : List OptimizedCommand) :
    flattenLists (c :: rest) = c :: flattenLists rest := by
  cases c <;> simp [flattenLists, isListNode] at hc ⊢

/-- Flattening never grows the total size, and keeps it only when there was
nothing to flatten. -/
theorem flatten_size : ∀ out : List OptimizedCommand,
    lsize (flattenLists out) ≤ lsize out ∧
      (lsize (flattenLists out) = lsize out → flattenLists out = out) := by
  intro out
  induction out with
  | nil => exact ⟨Nat.le_refl _, fun _ => rfl⟩
  | cons c rest ih =>
    cases c
    case List v =>
      rw [show flattenLists (.List v :: rest) = v ++ flattenLists rest from rfl]
      rw [lsize_append]
      constructor
      · have := ih.1
        simp [lsize, csize]
        omega
      · intro heq
        exfalso
        have := ih.1
        simp [lsize, csize] at heq
        omega
    all_goals
      rw [flattenLists_cons_nonlist (by rfl)]
      constructor
      · have := ih.1
        simp [lsize]
        omega
      · intro heq
        have h2 : lsize (flattenLists rest) = lsize rest := by
          simp [lsize] at heq
          omega
        rw [ih.2 h2]

/-- The holding loop never grows the total size, and keeps it only when it
reproduced the held node and the input list verbatim. -/
theorem ov_size (n : Nat) (hn : 1 ≤ n)
    (IH : ∀ c, csize c ≤ n → ∀ c', optimize c = some c' →
      csize c' ≤ csize c ∧ (csize c' = csize c → c' = c)) :
    ∀ (l : List OptimizedCommand) (h : Option OptimizedCommand),
    (∀ y ∈ l, csize y ≤ n) → (∀ y, h = some y → csize y ≤ n) →
    lsize (ov h l) ≤ osize h + lsize l ∧
      (lsize (ov h l) = osize h + lsize l → ov h l = h.toList ++ l) := by
  intro l
  induction l with
  | nil =>
    intro h hl hh
    cases h with
    | none =>
      rw [ov_none_nil]
      exact ⟨Nat.le_refl _, fun _ => rfl⟩
    | some hc =>
      rcases ho : optimize hc with _ | c
      · rw [ov_some_nil_none ho]
        have := csize_pos hc
        constructor
        · first
            | (simp [lsize, osize]; done)
            | (simp [lsize, osize]; omega)
        · intro heq
          exfalso
          simp [lsize, osize] at heq
          omega
      · rw [ov_some_nil_some ho]
        have hIH := IH hc (hh hc rfl) c ho
        constructor
        · simp [lsize, osize]
          omega
        · intro heq
          simp [lsize, osize] at heq
          have : c = hc := hIH.2 (by omega)
          rw [this]
          rfl
  | cons command rest ih =>
    intro h hl hh
    have hlrest : ∀ y ∈ rest, csize y ≤ n := fun y hy => hl y (List.mem_cons_of_mem _ hy)
    have hlcmd : csize command ≤ n := hl command (List.mem_cons_self _ _)
    cases h with
    | none =>
      rw [ov_none_cons]
      have := ih (some command) hlrest (by intro y hy; injection hy with hy; exact hy ▸ hlcmd)
      constructor
      · have h1 := this.1
        simp [osize, lsize] at h1 ⊢
        omega
      · intro heq
        have h1 : lsize (ov (some command) rest) = osize (some command) + lsize rest := by
          simp [osize, lsize] at heq ⊢
          omega
        have := this.2 h1
        simpa using this
    | some hc =>
      have hchc : csize hc ≤ n := hh hc rfl
      have hposc := csize_pos command
      have hposh := csize_pos hc
      rcases ov_cons_cases hc command rest with
        ⟨heq, hcmd⟩ | ⟨a, b, h1, h2, hb, heq⟩ | ⟨a, v, h1, h2, heq⟩ |
        ⟨a, b, h1, h2, hb, heq⟩ | ⟨a, b, h1, h2, hb, heq⟩ | ⟨hfl, heq⟩
      · -- skipped AddValue 0 / MovePointer 0
        rw [heq]
        have hcmd1 : csize command = 1 := by
          rcases hcmd with h | h <;> (subst h; simp [csize])
        have := ih (some hc) hlrest (by intro y hy; injection hy with hy; exact hy ▸ hchc)
        have h1 := this.1
        constructor
        · simp [osize, lsize] at h1 ⊢
          omega
        · intro heq2
          exfalso
          simp [osize, lsize] at h1 heq2
          omega
      · -- SetValue + AddValue merge
        subst h1; subst h2
        rw [heq]
        have := (ih (some (.SetValue (a + b))) hlrest
          (by intro y hy; injection hy with hy; subst hy; simp [csize]; omega)).1
        constructor
        · simp [osize, lsize, csize] at this ⊢
          omega
        · intro heq2
          exfalso
          simp [osize, lsize, csize] at this heq2
          omega
      · -- SetValue + SetValue merge
        subst h1; subst h2
        rw [heq]
        have := (ih (some (.SetValue v)) hlrest
          (by intro y hy; injection hy with hy; subst hy; simp [csize]; omega)).1
        constructor
        · simp [osize, lsize, csize] at this ⊢
          omega
        · intro heq2
          exfalso
          simp [osize, lsize, csize] at this heq2
          omega
      · -- AddValue + AddValue merge
        subst h1; subst h2
        rw [heq]
        split
        · have := (ih none hlrest (by intro y hy; cases hy)).1
          constructor
          · simp [osize, lsize, csize] at this ⊢
            omega
          · intro heq2
            exfalso
            simp [osize, lsize, csize] at this heq2
            omega
        · have := (ih (some (.AddValue (a + b))) hlrest
            (by intro y hy; injection hy with hy; subst hy; simp [csize]; omega)).1
          constructor
          · simp [osize, lsize, csize] at this ⊢
            omega
          · intro heq2
            exfalso
            simp [osize, lsize, csize] at this heq2
            omega
      · -- MovePointer + MovePointer merge
        subst h1; subst h2
        rw [heq]
        split
        · have := (ih none hlrest (by intro y hy; cases hy)).1
          constructor
          · simp [osize, lsize, csize] at this ⊢
            omega
          · intro heq2
            exfalso
            simp [osize, lsize, csize] at this heq2
            omega
        · have := (ih (some (.MovePointer (a + b))) hlrest
            (by intro y hy; injection hy with hy; subst hy; simp [csize]; omega)).1
          constructor
          · simp [osize, lsize, csize] at this ⊢
            omega
          · intro heq2
            exfalso
            simp [osize, lsize, csize] at this heq2
            omega
      · -- flush
        rw [heq]
        have hrec := ih (some command) hlrest
          (by intro y hy; injection hy with hy; exact hy ▸ hlcmd)
        rcases ho : optimize hc with _ | o
        · have h1 := hrec.1
          constructor
          · simp [osize, lsize] at h1 ⊢
            omega
          · intro heq2
            exfalso
            simp [osize, lsize] at h1 heq2
            omega
        · have hIH := IH hc hchc o ho
          have h1 := hrec.1
          constructor
          · simp [osize, lsize] at h1 ⊢
            omega
          · intro heq2
            simp only [lsize] at heq2
            simp [osize, lsize] at h1 heq2
            have ho2 : o = hc := hIH.2 (by omega)
            have hr2 : ov (some command) rest = command :: rest := by
              have := hrec.2 (by simp [osize, lsize]; omega)
              simpa using this
            rw [ho2, hr2]
            rfl

/-- Optimization never grows a tree, and returns an equally-sized tree only
if it is the very same tree: by strong induction on size. -/
theorem optimize_size_aux : ∀ (n : Nat) (c : OptimizedCommand), csize c ≤ n →
    ∀ c', optimize c = some c' →
      csize c' ≤ csize c ∧ (csize c' = csize c → c' = c) := by
  intro n
  induction n with
  | zero =>
    intro c hc
    have := csize_pos c
    omega
  | succ n ih =>
    intro c hc c' ho
    cases c with
    | MovePointer d =>
      rw [optimize_MovePointer] at ho
      split at ho
      · cases ho
      · injection ho with ho; subst ho; exact ⟨Nat.le_refl _, fun _ => rfl⟩
    | AddValue v =>
      rw [optimize_AddValue] at ho
      split at ho
      · cases ho
      · injection ho with ho; subst ho; exact ⟨Nat.le_refl _, fun _ => rfl⟩
    | SetValue v =>
      rw [optimize_SetValue] at ho
      injection ho with ho; subst ho; exact ⟨Nat.le_refl _, fun _ => rfl⟩
    | Print =>
      rw [optimize_Print] at ho
      injection ho with ho; subst ho; exact ⟨Nat.le_refl _, fun _ => rfl⟩
    | Read =>
      rw [optimize_Read] at ho
      injection ho with ho; subst ho; exact ⟨Nat.le_refl _, fun _ => rfl⟩
    | AddTo d =>
      rw [optimize_AddTo] at ho
      injection ho with ho; subst ho; exact ⟨Nat.le_refl _, fun _ => rfl⟩
    | List l =>
      cases l with
      | nil => rw [optimize_List_nil] at ho; cases ho
      | cons hd tl =>
        rw [optimize_List_cons] at ho
        have hn1 : 1 ≤ n := by
          have := csize_pos hd
          simp only [csize, lsize] at hc
          omega
        have hbound : ∀ y ∈ hd :: tl, csize y ≤ n := by
          intro y hy
          have := csize_le_of_mem hy
          simp only [csize] at hc
          omega
        have hov := ov_size n hn1 ih (hd :: tl) none hbound (by intro y hy; cases hy)
        have hflat := flatten_size (ov none (hd :: tl))
        have hvec1 : lsize (optimize_vec (hd :: tl)) ≤ lsize (hd :: tl) := by
          rw [optimize_vec_eq]
          have := hov.1
          have := hflat.1
          simp only [osize] at *
          omega
        have hvec2 : lsize (optimize_vec (hd :: tl)) = lsize (hd :: tl) →
            optimize_vec (hd :: tl) = hd :: tl := by
          intro heq
          rw [optimize_vec_eq] at heq ⊢
          have h1 := hflat.1
          have h2 := hov.1
          simp only [osize] at h2
          have h3 : lsize (flattenLists (ov none (hd :: tl)))
              = lsize (ov none (hd :: tl)) := by omega
          have h4 : lsize (ov none (hd :: tl)) = 0 + lsize (hd :: tl) := by omega
          rw [hflat.2 h3]
          have := hov.2 h4
          simpa using this
        rcases hov2 : optimize_vec (hd :: tl) with _ | ⟨c1, rest1⟩
        · rw [hov2] at ho; cases ho
        · rw [hov2] at ho
          rcases rest1 with _ | ⟨c2, rest2⟩
          · have ho' : some c1 = some c' := ho
            injection ho' with ho'
            subst ho'
            rw [hov2] at hvec1
            have hc1 : csize c1 ≤ csize hd + lsize tl := by
              simp only [lsize] at hvec1
              omega
            constructor
            · simp only [csize, lsize]
              omega
            · intro heq
              exfalso
              simp only [csize, lsize] at heq
              omega
          · have ho' : some (OptimizedCommand.List (c1 :: c2 :: rest2)) = some c' := ho
            injection ho' with ho'
            subst ho'
            rw [hov2] at hvec1 hvec2
            constructor
            · simp only [csize]
              omega
            · intro heq
              simp only [csize] at heq
              have := hvec2 (by omega)
              rw [this]
    | Jump c0 =>
      rw [optimize_Jump] at ho
      have hszc0 : csize c0 ≤ n := by
        simp only [csize] at hc
        omega
      have hpos0 := csize_pos c0
      rcases hoc : optimize c0 with _ | c1
      · simp only [optimize_jump, hoc] at ho
        cases ho
      · simp only [optimize_jump, hoc] at ho
        have hIH := ih c0 hszc0 c1 hoc
        split at ho
        · injection ho with ho; subst ho
          have h1 := hIH.1
          simp only [csize, lsize] at h1 ⊢
          constructor
          · omega
          · intro heq; exfalso; omega
        · injection ho with ho; subst ho
          have h1 := hIH.1
          simp only [csize, lsize] at h1 ⊢
          constructor
          · omega
          · intro heq; exfalso; omega
        · split at ho
          · split at ho
            · injection ho with ho; subst ho
              have h1 := hIH.1
              simp only [csize, lsize] at h1 ⊢
              constructor
              · omega
              · intro heq; exfalso; omega
            · injection ho with ho; subst ho
              have h1 := hIH.1
              have h2 := hIH.2
              simp only [csize] at *
              constructor
              · omega
              · intro heq
                have h3 := h2 (by omega)
                rw [h3]
          · split at ho
            · injection ho with ho; subst ho
              have h1 := hIH.1
              simp only [csize, lsize] at h1 ⊢
              constructor
              · omega
              · intro heq; exfalso; omega
            · injection ho with ho; subst ho
              have h1 := hIH.1
              have h2 := hIH.2
              simp only [csize] at *
              constructor
              · omega
              · intro heq
                have h3 := h2 (by omega)
                rw [h3]
          · injection ho with ho; subst ho
            have h1 := hIH.1
            have h2 := hIH.2
            simp only [csize] at *
            constructor
            · omega
            · intro heq
              have h3 := h2 (by omega)
              rw [h3]
        · injection ho with ho; subst ho
          have h1 := hIH.1
          have h2 := hIH.2
          simp only [csize] at *
          constructor
          · omega
          · intro heq
            have h3 := h2 (by omega)
            rw [h3]

@[simp] theorem Engine.get_set (e : Engine) (v : Fin 256) : (e.set v).get = v := by
  rw [Engine.get_eq, Engine.set_tape, Engine.set_pointer, Function.update_same]

theorem Engine.move_move (e : Engine) (a b : Int) :
    (e.move_tape a).move_tape b = e.move_tape (a + b) := by
  apply Engine.ext
  · rfl
  · show e.pointer + a + b = e.pointer + (a + b)
    omega
  · rfl
  · rfl

theorem Engine.set_add_merge (e : Engine) (a b : Fin 256) :
    (e.set (e.get + a)).set ((e.set (e.get + a)).get + b) = e.set (e.get + (a + b)) := by
  rw [Engine.get_set, Engine.set_set, add_assoc]

/-- Soundness of the holding loop: executing the held node followed by the
remaining input nodes is simulated by executing the loop's output. -/
theorem ov_sound (n : Nat) (IH : ∀ c : OptimizedCommand, csize c ≤ n → Sound c) :
    ∀ (l : List OptimizedCommand) (h : Option OptimizedCommand),
    (∀ y ∈ l, csize y ≤ n) → (∀ y, h = some y → Sound y) →
    ∀ s t, Exec (.List (h.toList ++ l)) s t → Exec (.List (ov h l)) s t := by
  intro l
  induction l with
  | nil =>
    intro h hl hh s t hexec
    cases h with
    | none =>
      rw [ov_none_nil]
      exact hexec
    | some hc =>
      cases hexec with
      | listCons h1 h2 =>
        cases h2
        have hso := hh hc rfl _ _ h1
        rcases ho : optimize hc with _ | c
        · rw [ov_some_nil_none ho]
          rw [ho] at hso
          have ht : _ = _ := hso
          subst ht
          exact Exec.listNil _
        · rw [ov_some_nil_some ho]
          rw [ho] at hso
          exact Exec.listCons hso (Exec.listNil _)
  | cons command rest ih =>
    intro h hl hh s t hexec
    have hlrest : ∀ y ∈ rest, csize y ≤ n := fun y hy => hl y (List.mem_cons_of_mem _ hy)
    have hScmd : Sound command :=
      IH command (hl command (List.mem_cons_self _ _))
    cases h with
    | none =>
      rw [ov_none_cons]
      exact ih (some command) hlrest
        (by intro y hy; injection hy with hy; exact hy ▸ hScmd) s t hexec
    | some hc =>
      have hShc : Sound hc := hh hc rfl
      cases hexec with
      | listCons h1 hrest1 =>
        cases hrest1 with
        | listCons h2 h3 =>
          rename_i m1 m2
          rcases ov_cons_cases hc command rest with
            ⟨heq, hcmd⟩ | ⟨a, b, hhc, hcm, hb, heq⟩ | ⟨a, v, hhc, hcm, heq⟩ |
            ⟨a, b, hhc, hcm, hb, heq⟩ | ⟨a, b, hhc, hcm, hb, heq⟩ | ⟨hfl, heq⟩
          · -- skipped AddValue 0 / MovePointer 0
            rw [heq]
            have hm2 : m2 = m1 := by
              rcases hcmd with hcm | hcm <;> subst hcm <;> cases h2
              · exact Engine.add_zero_noop m1
              · exact Engine.move_tape_zero m1
            subst hm2
            exact ih (some hc) hlrest
              (by intro y hy; injection hy with hy; exact hy ▸ hShc) s t
              (Exec.listCons h1 h3)
          · -- SetValue a then AddValue b
            subst hhc; subst hcm
            rw [heq]
            cases h1
            cases h2
            rw [Engine.get_set, Engine.set_set] at h3
            exact ih (some (.SetValue (a + b))) hlrest
              (by intro y hy; injection hy with hy; exact hy ▸ sound_SetValue (a + b)) s t
              (Exec.listCons (Exec.setValue (a + b) s) h3)
          · -- SetValue a then SetValue v
            subst hhc; subst hcm
            rw [heq]
            cases h1
            cases h2
            rw [Engine.set_set] at h3
            exact ih (some (.SetValue v)) hlrest
              (by intro y hy; injection hy with hy; exact hy ▸ sound_SetValue v) s t
              (Exec.listCons (Exec.setValue v s) h3)
          · -- AddValue a then AddValue b
            subst hhc; subst hcm
            rw [heq]
            cases h1
            cases h2
            rw [Engine.set_add_merge] at h3
            split
            · rename_i hz
              rw [hz] at h3
              rw [Engine.add_zero_noop] at h3
              exact ih none hlrest (by intro y hy; cases hy) s t h3
            · exact ih (some (.AddValue (a + b))) hlrest
                (by intro y hy; injection hy with hy; exact hy ▸ sound_AddValue (a + b)) s t
                (Exec.listCons (Exec.addValue (a + b) s) h3)
          · -- MovePointer a then MovePointer b
            subst hhc; subst hcm
            rw [heq]
            cases h1
            cases h2
            rw [Engine.move_move] at h3
            split
            · rename_i hz
              rw [hz] at h3
              rw [Engine.move_tape_zero] at h3
              exact ih none hlrest (by intro y hy; cases hy) s t h3
            · exact ih (some (.MovePointer (a + b))) hlrest
                (by intro y hy; injection hy with hy; exact hy ▸ sound_MovePointer (a + b)) s t
                (Exec.listCons (Exec.movePointer (a + b) s) h3)
          · -- flush
            rw [heq]
            have hso := hShc _ _ h1
            rcases ho : optimize hc with _ | o
            · rw [ho] at hso
              have hm : _ = _ := hso
              subst hm
              simp only [ho]
              exact ih (some command) hlrest
                (by intro y hy; injection hy with hy; exact hy ▸ hScmd) m1 t
                (Exec.listCons h2 h3)
            · rw [ho] at hso
              simp only [ho]
              exact Exec.listCons hso
                (ih (some command) hlrest
                  (by intro y hy; injection hy with hy; exact hy ▸ hScmd) m1 t
                  (Exec.listCons h2 h3))

/-- Soundness of the optimizer (main induction for C1): any terminating
execution of a node is a terminating execution of its optimized form. -/
theorem optimize_sound_aux : ∀ (n : Nat) (c : OptimizedCommand), csize c ≤ n → Sound c := by
  intro n
  induction n with
  | zero =>
    intro c hc
    have := csize_pos c
    omega
  | succ n ih =>
    intro c hc s t hexec
    cases c with
    | MovePointer d => exact sound_MovePointer d s t hexec
    | AddValue v => exact sound_AddValue v s t hexec
    | SetValue v => exact sound_SetValue v s t hexec
    | Print =>
      rw [optimize_Print]
      exact hexec
    | Read =>
      rw [optimize_Read]
      exact hexec
    | AddTo d =>
      rw [optimize_AddTo]
      exact hexec
    | List l =>
      cases l with
      | nil =>
        rw [optimize_List_nil]
        cases hexec
        rfl
      | cons hd tl =>
        rw [optimize_List_cons]
        have hbound : ∀ y ∈ hd :: tl, csize y ≤ n := by
          intro y hy
          have := csize_le_of_mem hy
          simp only [csize] at hc
          omega
        have h1 := ov_sound n ih (hd :: tl) none hbound
          (by intro y hy; cases hy) s t hexec
        have h2 : Exec (.List (optimize_vec (hd :: tl))) s t := by
          rw [optimize_vec_eq]
          exact flatten_sound _ _ _ h1
        rcases hov : optimize_vec (hd :: tl) with _ | ⟨c1, rest1⟩
        · rw [hov] at h2
          cases h2
          rfl
        · rw [hov] at h2
          rcases rest1 with _ | ⟨c2, rest2⟩
          · cases h2 with
            | listCons ha hb =>
              cases hb
              exact ha
          · exact h2
    | Jump c0 =>
      rw [optimize_Jump]
      have hszc0 : csize c0 ≤ n := by
        simp only [csize] at hc
        omega
      have hS : Sound c0 := ih c0 hszc0
      rcases hoc : optimize c0 with _ | c1
      · simp only [optimize_jump, hoc]
        exact jump_noop_aux hexec c0 rfl (by
          intro u v h
          have h2 := hS u v h
          rw [hoc] at h2
          exact h2)
      · simp only [optimize_jump, hoc]
        have hbody : ∀ u v, Exec c0 u v → Exec c1 u v := by
          intro u v h
          have h2 := hS u v h
          rw [hoc] at h2
          exact h2
        split
        · -- AddValue 1 body: SetValue 0
          rename_i hlt
          have ht := jump_clear_aux hexec c0 _ rfl
            (fun u v h => by cases hbody u v h; rfl)
          rw [ht]
          exact Exec.setValue 0 s
        · -- AddValue 255 body: SetValue 0
          rename_i hlt
          have ht := jump_clear_aux hexec c0 _ rfl
            (fun u v h => by cases hbody u v h; rfl)
          rw [ht]
          exact Exec.setValue 0 s
        · -- List body
          have hwf := optimize_wf hoc
          split
          · -- four-node pattern
            split
            · rename_i hab
              simp only [wf, wfList, isListNode, Bool.and_eq_true, decide_eq_true_eq,
                Bool.not_eq_true'] at hwf
              have ha : _ ≠ (0 : Int) := hwf.2.2.1.2
              have ht := jump_addto_aux hexec c0 _ _ rfl hab ha hbody
              rw [ht]
              exact Exec.listCons (Exec.addTo _ s) (Exec.listCons (Exec.setValue 0 _)
                (Exec.listNil _))
            · exact jump_congr_aux hexec c0 _ rfl hbody
          · -- six-node pattern
            split
            · rename_i hs6
              simp only [wf, wfList, isListNode, Bool.and_eq_true, decide_eq_true_eq,
                Bool.not_eq_true'] at hwf
              have ha : _ ≠ (0 : Int) := hwf.2.2.1.2
              have hb : _ ≠ (0 : Int) := hwf.2.2.2.2.1.2
              have hs' : _ ≠ (0 : Int) := hwf.2.2.2.2.2.2.1.2
              have ht := jump_addto2_aux hexec c0 _ _ _ rfl hs6 ha hb (by omega) hbody
              rw [ht]
              exact Exec.listCons (Exec.addTo _ s) (Exec.listCons (Exec.addTo _ _)
                (Exec.listCons (Exec.setValue 0 _) (Exec.listNil _)))
            · exact jump_congr_aux hexec c0 _ rfl hbody
          · exact jump_congr_aux hexec c0 _ rfl hbody
        · exact jump_congr_aux hexec c0 _ rfl hbody

/-- Soundness of the optimizer, packaged. -/
theorem optimize_sound (c : OptimizedCommand) : Sound c :=
  optimize_sound_aux (csize c) c (Nat.le_refl _)

/-- Scanning for a loop-end that closes a loop never opened: `d` counts the
currently open loop-begins. -/
def hasUnmatchedClose : List Command → Nat → Bool
  | [], _ => false
  | .Target :: _, 0 => true
  | .Target :: rest, d + 1 => hasUnmatchedClose rest d
  | .Jump :: rest, d => hasUnmatchedClose rest (d + 1)
  | _ :: rest, d => hasUnmatchedClose rest d

/-- Inside a loop body the builder never fails: a loop-end breaks out and
end-of-input closes the body implicitly. -/
theorem buildAux_true_total : ∀ (n : Nat) (cs : List Command), cs.length ≤ n →
    (buildAux cs true).isSome = true := by
  intro n
  induction n with
  | zero =>
    intro cs hlen
    cases cs with
    | nil => simp [buildAux]
    | cons c rest => simp at hlen
  | succ n ihn =>
    intro cs hlen
    cases cs with
    | nil => simp [buildAux]
    | cons c rest =>
      have hlr : rest.length ≤ n := by simp at hlen; omega
      cases c with
      | Target => simp [buildAux]
      | Jump =>
        obtain ⟨⟨body, r1, hr1⟩, h1⟩ := Option.isSome_iff_exists.mp (ihn rest hlr)
        obtain ⟨⟨l2, r2, hr2⟩, h2⟩ := Option.isSome_iff_exists.mp (ihn r1 (by omega))
        simp only [buildAux, h1, h2, Option.isSome]
      | IncremenentPointer =>
        obtain ⟨⟨l1, r1, hr1⟩, h1⟩ := Option.isSome_iff_exists.mp (ihn rest hlr)
        simp only [buildAux, h1, Option.isSome]
      | DecrementPointer =>
        obtain ⟨⟨l1, r1, hr1⟩, h1⟩ := Option.isSome_iff_exists.mp (ihn rest hlr)
        simp only [buildAux, h1, Option.isSome]
      | IncrementValue =>
        obtain ⟨⟨l1, r1, hr1⟩, h1⟩ := Option.isSome_iff_exists.mp (ihn rest hlr)
        simp only [buildAux, h1, Option.isSome]
      | DecrementValue =>
        obtain ⟨⟨l1, r1, hr1⟩, h1⟩ := Option.isSome_iff_exists.mp (ihn rest hlr)
        simp only [buildAux, h1, Option.isSome]
      | Print =>
        obtain ⟨⟨l1, r1, hr1⟩, h1⟩ := Option.isSome_iff_exists.mp (ihn rest hlr)
        simp only [buildAux, h1, Option.isSome]
      | Read =>
        obtain ⟨⟨l1, r1, hr1⟩, h1⟩ := Option.isSome_iff_exists.mp (ihn rest hlr)
        simp only [buildAux, h1, Option.isSome]

/-- Consuming a loop body moves the unmatched-close scan from depth `d+1`
to depth `d` on the remainder. -/
theorem buildAux_depth : ∀ (n : Nat) (cs : List Command), cs.length ≤ n →
    ∀ (l : List OptimizedCommand) (r : { r : List Command // r.length ≤ cs.length }),
    buildAux cs true = some (l, r) → ∀ d : Nat,
    hasUnmatchedClose cs (d + 1) = hasUnmatchedClose r.1 d := by
  intro n
  induction n with
  | zero =>
    intro cs hlen l r h d
    cases cs with
    | nil =>
      simp only [buildAux] at h
      cases h
      simp [hasUnmatchedClose]
    | cons c rest => simp at hlen
  | succ n ihn =>
    intro cs hlen l r h d
    cases cs with
    | nil =>
      simp only [buildAux] at h
      cases h
      simp [hasUnmatchedClose]
    | cons c rest =>
      have hlr : rest.length ≤ n := by simp at hlen; omega
      cases c with
      | Target =>
        simp only [buildAux, if_pos] at h
        cases h
        simp [hasUnmatchedClose]
      | Jump =>
        obtain ⟨⟨body, r1, hr1⟩, h1⟩ := Option.isSome_iff_exists.mp
          (buildAux_true_total n rest hlr)
        obtain ⟨⟨l2, r2, hr2⟩, h2⟩ := Option.isSome_iff_exists.mp
          (buildAux_true_total n r1 (by omega))
        simp only [buildAux, h1, h2] at h
        cases h
        show hasUnmatchedClose (Command.Jump :: rest) (d + 1) = hasUnmatchedClose r2 d
        have e1 : hasUnmatchedClose (Command.Jump :: rest) (d + 1)
            = hasUnmatchedClose rest (d + 2) := by
          simp [hasUnmatchedClose]
        rw [e1, ihn rest hlr body ⟨r1, hr1⟩ h1 (d + 1), ihn r1 (by omega) l2 ⟨r2, hr2⟩ h2 d]
      | IncremenentPointer =>
        obtain ⟨⟨l1, r1, hr1⟩, h1⟩ := Option.isSome_iff_exists.mp
          (buildAux_true_total n rest hlr)
        simp only [buildAux, h1] at h
        cases h
        show hasUnmatchedClose (_ :: rest) (d + 1) = hasUnmatchedClose r1 d
        rw [show hasUnmatchedClose (Command.IncremenentPointer :: rest) (d + 1)
            = hasUnmatchedClose rest (d + 1) from by simp [hasUnmatchedClose]]
        exact ihn rest hlr l1 ⟨r1, hr1⟩ h1 d
      | DecrementPointer =>
        obtain ⟨⟨l1, r1, hr1⟩, h1⟩ := Option.isSome_iff_exists.mp
          (buildAux_true_total n rest hlr)
        simp only [buildAux, h1] at h
        cases h
        rw [show hasUnmatchedClose (Command.DecrementPointer :: rest) (d + 1)
            = hasUnmatchedClose rest (d + 1) from by simp [hasUnmatchedClose]]
        exact ihn rest hlr l1 ⟨r1, hr1⟩ h1 d
      | IncrementValue =>
        obtain ⟨⟨l1, r1, hr1⟩, h1⟩ := Option.isSome_iff_exists.mp
          (buildAux_true_total n rest hlr)
        simp only [buildAux, h1] at h
        cases h
        rw [show hasUnmatchedClose (Command.IncrementValue :: rest) (d + 1)
            = hasUnmatchedClose rest (d + 1) from by simp [hasUnmatchedClose]]
        exact ihn rest hlr l1 ⟨r1, hr1⟩ h1 d
      | DecrementValue =>
        obtain ⟨⟨l1, r1, hr1⟩, h1⟩ := Option.isSome_iff_exists.mp
          (buildAux_true_total n rest hlr)
        simp only [buildAux, h1] at h
        cases h
        rw [show hasUnmatchedClose (Command.DecrementValue :: rest) (d + 1)
            = hasUnmatchedClose rest (d + 1) from by simp [hasUnmatchedClose]]
        exact ihn rest hlr l1 ⟨r1, hr1⟩ h1 d
      | Print =>
        obtain ⟨⟨l1, r1, hr1⟩, h1⟩ := Option.isSome_iff_exists.mp
          (buildAux_true_total n rest hlr)
        simp only [buildAux, h1] at h
        cases h
        rw [show hasUnmatchedClose (Command.Print :: rest) (d + 1)
            = hasUnmatchedClose rest (d + 1) from by simp [hasUnmatchedClose]]
        exact ihn rest hlr l1 ⟨r1, hr1⟩ h1 d
      | Read =>
        obtain ⟨⟨l1, r1, hr1⟩, h1⟩ := Option.isSome_iff_exists.mp
          (buildAux_true_total n rest hlr)
        simp only [buildAux, h1] at h
        cases h
        rw [show hasUnmatchedClose (Command.Read :: rest) (d + 1)
            = hasUnmatchedClose rest (d + 1) from by simp [hasUnmatchedClose]]
        exact ihn rest hlr l1 ⟨r1, hr1⟩ h1 d

/-- At top level the builder fails exactly when some loop-end closes a loop
that was never opened. -/
theorem buildAux_false_char : ∀ (n : Nat) (cs : List Command), cs.length ≤ n →
    ((buildAux cs false = none) ↔ hasUnmatchedClose cs 0 = true) := by
  intro n
  induction n with
  | zero =>
    intro cs hlen
    cases cs with
    | nil => simp [buildAux, hasUnmatchedClose]
    | cons c rest => simp at hlen
  | succ n ihn =>
    intro cs hlen
    cases cs with
    | nil => simp [buildAux, hasUnmatchedClose]
    | cons c rest =>
      have hlr : rest.length ≤ n := by simp at hlen; omega
      cases c with
      | Target => simp [buildAux, hasUnmatchedClose]
      | Jump =>
        obtain ⟨⟨body, r1, hr1⟩, h1⟩ := Option.isSome_iff_exists.mp
          (buildAux_true_total n rest hlr)
        have hd := buildAux_depth n rest hlr body ⟨r1, hr1⟩ h1 0
        have hih := ihn r1 (by omega)
        have e1 : hasUnmatchedClose (Command.Jump :: rest) 0
            = hasUnmatchedClose rest 1 := by
          simp [hasUnmatchedClose]
        rcases h2 : buildAux r1 false with _ | ⟨l2, r2, hr2⟩
        · simp only [buildAux, h1, h2]
          rw [e1, hd]
          simp [hih.mp h2]
        · simp only [buildAux, h1, h2]
          rw [e1, hd]
          constructor
          · intro hcon; cases hcon
          · intro hcon
            exfalso
            have := hih.mpr hcon
            rw [h2] at this
            cases this
      | IncremenentPointer =>
        rcases h1 : buildAux rest false with _ | ⟨l1, r1, hr1⟩
        · simp only [buildAux, h1]
          simp [hasUnmatchedClose, (ihn rest hlr).mp h1]
        · simp only [buildAux, h1]
          rw [show hasUnmatchedClose (Command.IncremenentPointer :: rest) 0
              = hasUnmatchedClose rest 0 from by simp [hasUnmatchedClose]]
          constructor
          · intro hcon; cases hcon
          · intro hcon
            exfalso
            have := (ihn rest hlr).mpr hcon
            rw [h1] at this
            cases this
      | DecrementPointer =>
        rcases h1 : buildAux rest false with _ | ⟨l1, r1, hr1⟩
        · simp only [buildAux, h1]
          simp [hasUnmatchedClose, (ihn rest hlr).mp h1]
        · simp only [buildAux, h1]
          rw [show hasUnmatchedClose (Command.DecrementPointer :: rest) 0
              = hasUnmatchedClose rest 0 from by simp [hasUnmatchedClose]]
          constructor
          · intro hcon; cases hcon
          · intro hcon
            exfalso
            have := (ihn rest hlr).mpr hcon
            rw [h1] at this
            cases this
      | IncrementValue =>
        rcases h1 : buildAux rest false with _ | ⟨l1, r1, hr1⟩
        · simp only [buildAux, h1]
          simp [hasUnmatchedClose, (ihn rest hlr).mp h1]
        · simp only [buildAux, h1]
          rw [show hasUnmatchedClose (Command.IncrementValue :: rest) 0
              = hasUnmatchedClose rest 0 from by simp [hasUnmatchedClose]]
          constructor
          · intro hcon; cases hcon
          · intro hcon
            exfalso
            have := (ihn rest hlr).mpr hcon
            rw [h1] at this
            cases this
      | DecrementValue =>
        rcases h1 : buildAux rest false with _ | ⟨l1, r1, hr1⟩
        · simp only [buildAux, h1]
          simp [hasUnmatchedClose, (ihn rest hlr).mp h1]
        · simp only [buildAux, h1]
          rw [show hasUnmatchedClose (Command.DecrementValue :: rest) 0
              = hasUnmatchedClose rest 0 from by simp [hasUnmatchedClose]]
          constructor
          · intro hcon; cases hcon
          · intro hcon
            exfalso
            have := (ihn rest hlr).mpr hcon
            rw [h1] at this
            cases this
      | Print =>
        rcases h1 : buildAux rest false with _ | ⟨l1, r1, hr1⟩
        · simp only [buildAux, h1]
          simp [hasUnmatchedClose, (ihn rest hlr).mp h1]
        · simp only [buildAux, h1]
          rw [show hasUnmatchedClose (Command.Print :: rest) 0
              = hasUnmatchedClose rest 0 from by simp [hasUnmatchedClose]]
          constructor
          · intro hcon; cases hcon
          · intro hcon
            exfalso
            have := (ihn rest hlr).mpr hcon
            rw [h1] at this
            cases this
      | Read =>
        rcases h1 : buildAux rest false with _ | ⟨l1, r1, hr1⟩
        · simp only [buildAux, h1]
          simp [hasUnmatchedClose, (ihn rest hlr).mp h1]
        · simp only [buildAux, h1]
          rw [show hasUnmatchedClose (Command.Read :: rest) 0
              = hasUnmatchedClose rest 0 from by simp [hasUnmatchedClose]]
          constructor
          · intro hcon; cases hcon
          · intro hcon
            exfalso
            have := (ihn rest hlr).mpr hcon
            rw [h1] at this
            cases this

/-- The top-level builder fails exactly on an unmatched loop-end. -/
theorem build_none_iff (cs : List Command) :
    build cs false = none ↔ hasUnmatchedClose cs 0 = true := by
  rw [build, Option.map_eq_none']
  exact buildAux_false_char cs.length cs (Nat.le_refl _)

/-- Execution of an optional node is deterministic. -/
theorem ExecO_det {o : Option OptimizedCommand} {s t t' : Engine}
    (h : ExecO o s t) (h' : ExecO o s t') : t = t' := by
  cases o with
  | none =>
    have h1 : _ = _ := h
    have h2 : _ = _ := h'
    rw [h1, h2]
  | some c => exact exec_det h h'

/-- C1.  For every valid source program and every input byte sequence,
the unoptimized tree and the twice-optimized tree (as `main` computes it)
are observationally equivalent: every terminating execution of the built
tree is a terminating execution of the twice-optimized tree with the same
final state, and any execution of the twice-optimized tree produces the
same output byte sequence.  (The input is part of the engine state `s`,
which is universally quantified.) -/
theorem optimize_twice_preserves_output
    (cs : List Command) (prog : OptimizedCommand)
    (hbuild : build cs false = some prog)
    (s t : Engine) (hexec : Exec prog s t) :
    ExecO ((optimize prog).bind optimize) s t
      ∧ ∀ t', ExecO ((optimize prog).bind optimize) s t' → t'.output = t.output := by
  have h1 := optimize_sound prog s t hexec
  have h2 : ExecO ((optimize prog).bind optimize) s t := by
    rcases ho1 : optimize prog with _ | p1
    · rw [ho1] at h1
      exact h1
    · rw [ho1] at h1
      have h3 := optimize_sound p1 s t h1
      exact h3
  exact ⟨h2, fun t' h' => by rw [ExecO_det h' h2]⟩

/-- Witness for C1: the program `+.` built, executed, and its
twice-optimized form reaching the same state. -/
theorem optimize_twice_preserves_output_witness :
    ExecO ((optimize (.List [.AddValue 1, .Print])).bind optimize) (Engine.new [])
      (((Engine.new []).set ((Engine.new []).get + 1)).write
        (((Engine.new []).set ((Engine.new []).get + 1)).get)) :=
  (optimize_twice_preserves_output [Command.IncrementValue, Command.Print]
    (.List [.AddValue 1, .Print])
    (by simp [build, buildAux])
    (Engine.new []) _
    (Exec.listCons (Exec.addValue 1 _)
      (Exec.listCons (Exec.print _) (Exec.listNil _)))).1

/-- C2 (amended).  A third application of the optimizer to a twice-optimized
tree yields that tree unchanged, erases it, or strictly shrinks it; it is
not in general the identity (see the counterexample below).  Convergence is
only guaranteed after finitely many applications, since every application
either preserves the tree exactly or strictly decreases its size. -/
theorem optimize_third_application (c c2 : OptimizedCommand)
    (h : (optimize c).bind optimize = some c2) :
    optimize c2 = some c2 ∨ optimize c2 = none
      ∨ ∃ c3, optimize c2 = some c3 ∧ csize c3 < csize c2 := by
  rcases ho : optimize c2 with _ | c3
  · exact Or.inr (Or.inl rfl)
  · have hsz := optimize_size_aux (csize c2) c2 (Nat.le_refl _) c3 ho
    rcases Nat.lt_or_ge (csize c3) (csize c2) with hlt | hge
    · exact Or.inr (Or.inr ⟨c3, rfl, hlt⟩)
    · left
      rw [hsz.2 (Nat.le_antisymm hsz.1 hge)]

/-- Counterexample for C2 as stated: for the (buildable) tree
`+[+[><]-]-`, two optimizer passes give `List [AddValue 1, AddValue 255]`,
but a third pass erases that tree instead of returning it unchanged. -/
theorem optimize_third_application_cex :
    (optimize (.List [.AddValue 1, .Jump (.List [.AddValue 1,
        .Jump (.List [.MovePointer 1, .MovePointer (-1)]), .AddValue 255]),
        .AddValue 255])).bind optimize
      = some (.List [.AddValue 1, .AddValue 255])
    ∧ optimize (.List [.AddValue 1, .AddValue 255]) = none
    ∧ optimize (.List [.AddValue 1, .AddValue 255])
        ≠ some (.List [.AddValue 1, .AddValue 255]) := by
  refine ⟨?_, ?_, ?_⟩
  · simp [optimize, optimize_vec, ov, optimize_jump, flattenLists]
  · simp [optimize, optimize_vec, ov, flattenLists]
  · simp [optimize, optimize_vec, ov, flattenLists]

/-- Witness for C2 (amended): applied to `AddValue 1`, whose twice-optimized
form is itself and stays fixed. -/
theorem optimize_third_application_witness :
    optimize (.AddValue 1) = some (.AddValue 1)
      ∨ optimize (.AddValue 1) = none
      ∨ ∃ c3, optimize (.AddValue 1) = some c3 ∧ csize c3 < csize (.AddValue 1) :=
  optimize_third_application (.AddValue 1) (.AddValue 1) (by simp [optimize])

/-- Initial engine for the C3 literal scenario: cell 0 holds 5, cell 1
holds 0 (empty input). -/
def scenEngine : Engine :=
  { tape := Function.update (fun _ => 0) 0 5, pointer := 0, input := [], output := [] }

/-- C3.  The copy-and-clear rewrite: whenever a loop body optimizes to the
exact four-node sequence `[AddValue 255, MovePointer a, AddValue 1,
MovePointer b]` with `a = -b`, the whole loop is rewritten to
`[AddTo a, SetValue 0]`; and for the literal source `[->+<]` the builder,
the optimizer (as applied once by `main`'s first pass) and the execution on
a tape with current cell 5 / next cell 0 produce exactly the claimed
results: the loop becomes `[AddTo 1, SetValue 0]` and executing it leaves
cell 0 at 0 and cell 1 at 5. -/
theorem copy_loop_rewrite :
    (∀ (inner : OptimizedCommand) (a b : Int),
      optimize inner
          = some (.List [.AddValue 255, .MovePointer a, .AddValue 1, .MovePointer b]) →
      a = -b →
      optimize (.Jump inner) = some (.List [.AddTo a, .SetValue 0]))
    ∧ build [Command.Jump, .DecrementValue, .IncremenentPointer, .IncrementValue,
        .DecrementPointer, .Target] false
      = some (.List [.Jump (.List [.AddValue 255, .MovePointer 1, .AddValue 1,
          .MovePointer (-1)])])
    ∧ (build [Command.Jump, .DecrementValue, .IncremenentPointer, .IncrementValue,
        .DecrementPointer, .Target] false).bind optimize
      = some (.List [.AddTo 1, .SetValue 0])
    ∧ (run 10 (.List [.AddTo 1, .SetValue 0]) scenEngine).map
        (fun e => (e.tape 0, e.tape 1)) = some (0, 5) := by
  refine ⟨?_, ?_, ?_, ?_⟩
  · intro inner a b ho hab
    rw [optimize_Jump]
    simp only [optimize_jump, ho]
    rw [if_pos hab]
  · simp [build, buildAux]
  · simp [build, buildAux, optimize, optimize_vec, ov, optimize_jump, flattenLists]
  · decide

/-- Witness for C3: the general rewrite applied at `a = 1`, `b = -1` with
the body of `[->+<]`. -/
theorem copy_loop_rewrite_witness :
    optimize (.List [.AddValue 255, .MovePointer 1, .AddValue 1, .MovePointer (-1)])
        = some (.List [.AddValue 255, .MovePointer 1, .AddValue 1, .MovePointer (-1)])
      ∧ optimize (.Jump (.List [.AddValue 255, .MovePointer 1, .AddValue 1,
          .MovePointer (-1)]))
        = some (.List [.AddTo 1, .SetValue 0]) :=
  ⟨by simp [optimize, optimize_vec, ov, flattenLists],
   copy_loop_rewrite.1 _ 1 (-1)
     (by simp [optimize, optimize_vec, ov, flattenLists]) (by decide)⟩

/-- C4.  A loop whose optimized body is a single `AddValue 1` or
`AddValue 255` is rewritten to `SetValue 0`; executing `SetValue 0` puts 0
in the current cell whatever it held, touching nothing else; and the
literal `[-]` program optimizes to `SetValue 0`. -/
theorem clear_loop_rewrite :
    (∀ inner : OptimizedCommand,
      optimize inner = some (.AddValue 1) ∨ optimize inner = some (.AddValue 255) →
      optimize (.Jump inner) = some (.SetValue 0))
    ∧ (∀ s : Engine, Exec (.SetValue 0) s (s.set 0)
        ∧ (s.set 0).tape s.pointer = 0
        ∧ (s.set 0).pointer = s.pointer
        ∧ (∀ q, q ≠ s.pointer → (s.set 0).tape q = s.tape q)
        ∧ (s.set 0).input = s.input
        ∧ (s.set 0).output = s.output
        ∧ ∀ t, Exec (.SetValue 0) s t → t = s.set 0)
    ∧ (build [Command.Jump, Command.DecrementValue, Command.Target] false).bind optimize
      = some (.SetValue 0) := by
  refine ⟨?_, ?_, ?_⟩
  · intro inner h
    rw [optimize_Jump]
    rcases h with h | h <;> simp only [optimize_jump, h]
  · intro s
    refine ⟨Exec.setValue 0 s, ?_, rfl, ?_, rfl, rfl, ?_⟩
    · rw [Engine.set_tape, Function.update_same]
    · intro q hq
      rw [Engine.set_tape, Function.update_noteq hq]
    · intro t h
      cases h
      rfl
  · simp [build, buildAux, optimize, optimize_vec, ov, optimize_jump, flattenLists]

/-- Witness for C4: the rewrite applied to the body `AddValue 255`. -/
theorem clear_loop_rewrite_witness :
    optimize (.AddValue 255) = some (.AddValue 255)
      ∧ optimize (.Jump (.AddValue 255)) = some (.SetValue 0) :=
  ⟨by simp [optimize], clear_loop_rewrite.1 (.AddValue 255) (Or.inr (by simp [optimize]))⟩

/-- C5.  `AddTo offset` adds the current cell to the cell at
`pointer + offset`, wrapping modulo 256 on the byte values, never fails
(a successor state always exists), and is deterministic. -/
theorem addto_wraps (d : Int) (s : Engine) :
    Exec (.AddTo d) s (s.set_rel (s.get + s.get_rel d) d)
    ∧ ((s.set_rel (s.get + s.get_rel d) d).tape (s.pointer + d)).val
        = ((s.tape (s.pointer + d)).val + (s.tape s.pointer).val) % 256
    ∧ ∀ t, Exec (.AddTo d) s t → t = s.set_rel (s.get + s.get_rel d) d := by
  refine ⟨Exec.addTo d s, ?_, ?_⟩
  · rw [Engine.set_rel_tape, Function.update_same, Engine.get_eq, Engine.get_rel_eq,
      Fin.val_add]
    omega
  · intro t h
    cases h
    rfl

/-- Witness for C5: the wrap equation evaluated on a fresh engine with
offset 1. -/
theorem addto_wraps_witness :
    (((Engine.new []).set_rel ((Engine.new []).get + (Engine.new []).get_rel 1) 1).tape
        ((Engine.new []).pointer + 1)).val
      = (((Engine.new []).tape ((Engine.new []).pointer + 1)).val
          + ((Engine.new []).tape (Engine.new []).pointer).val) % 256 :=
  (addto_wraps 1 (Engine.new [])).2.1

/-- Engine with current cell 1, used to refute the offset-0 frame claim. -/
def cexEngine : Engine :=
  { tape := Function.update (fun _ => 0) 0 1, pointer := 0, input := [], output := [] }

/-- Counterexample for C6 as stated: at offset 0, `AddTo` doubles the
current cell (here 1 becomes 2), so it does not leave the cell at the
pointer unchanged for *every* offset. -/
theorem addto_frame_cex :
    ¬ ∀ (d : Int) (s t : Engine), Exec (.AddTo d) s t →
        t.tape s.pointer = s.tape s.pointer := by
  intro h
  have h2 := h 0 cexEngine _ (Exec.addTo 0 cexEngine)
  have h3 : (cexEngine.set_rel (cexEngine.get + cexEngine.get_rel 0) 0).tape
      cexEngine.pointer = 2 := by decide
  rw [h3] at h2
  have h4 : cexEngine.tape cexEngine.pointer = 1 := by decide
  rw [h4] at h2
  exact absurd h2 (by decide)

/-- C6 (amended).  For every nonzero offset, `AddTo offset` leaves the cell
at the current pointer unchanged, modifies only the cell at
`pointer + offset`, and moves neither the pointer nor the I/O streams.
(At offset 0 the "target" cell *is* the current cell, which is doubled —
see the counterexample.) -/
theorem addto_frame (d : Int) (hd : d ≠ 0) (s t : Engine)
    (h : Exec (.AddTo d) s t) :
    t.tape s.pointer = s.tape s.pointer
    ∧ (∀ q, q ≠ s.pointer + d → t.tape q = s.tape q)
    ∧ t.pointer = s.pointer ∧ t.input = s.input ∧ t.output = s.output := by
  cases h
  refine ⟨?_, ?_, rfl, rfl, rfl⟩
  · rw [Engine.set_rel_tape, Function.update_noteq (by omega)]
  · intro q hq
    rw [Engine.set_rel_tape, Function.update_noteq hq]

/-- Witness for C6 (amended): offset 1 on the counterexample engine. -/
theorem addto_frame_witness :
    (cexEngine.set_rel (cexEngine.get + cexEngine.get_rel 1) 1).tape cexEngine.pointer
        = cexEngine.tape cexEngine.pointer
      ∧ (∀ q, q ≠ cexEngine.pointer + 1 →
          (cexEngine.set_rel (cexEngine.get + cexEngine.get_rel 1) 1).tape q
            = cexEngine.tape q)
      ∧ (cexEngine.set_rel (cexEngine.get + cexEngine.get_rel 1) 1).pointer
          = cexEngine.pointer
      ∧ (cexEngine.set_rel (cexEngine.get + cexEngine.get_rel 1) 1).input
          = cexEngine.input
      ∧ (cexEngine.set_rel (cexEngine.get + cexEngine.get_rel 1) 1).output
          = cexEngine.output :=
  addto_frame 1 (by decide) cexEngine _ (Exec.addTo 1 cexEngine)

/-- C7.  Optimizer output is structurally well-formed: no empty `List`, no
`List` nested directly in a `List`, no singleton `List`, and no
`AddValue 0` or `MovePointer 0` anywhere (the recursive predicate `wf`
checks exactly these conditions on every node). -/
theorem optimize_output_wf (c c' : OptimizedCommand) (h : optimize c = some c') :
    wf c' = true :=
  optimize_wf h

/-- Witness for C7: optimizing a list containing an `AddValue 0`, a
`MovePointer 0` and a mergeable pair yields a well-formed tree. -/
theorem optimize_output_wf_witness :
    wf (.MovePointer 1) = true :=
  optimize_output_wf (.List [.AddValue 0, .MovePointer 1, .MovePointer 0])
    (.MovePointer 1)
    (by simp [optimize, optimize_vec, ov, flattenLists])

/-- C8.  The top-level tree builder (inside-a-loop flag clear) fails
precisely when it meets a loop-end with no enclosing loop-begin — the scan
`hasUnmatchedClose` — and in particular the single-command source `]` is a
fatal malformed-source error (`main` unwraps the error before any
execution). -/
theorem build_unmatched_close :
    (∀ cs : List Command, build cs false = none ↔ hasUnmatchedClose cs 0 = true)
    ∧ build [Command.Target] false = none := by
  refine ⟨build_none_iff, ?_⟩
  rw [build_none_iff]
  rfl

/-- C9.  A command sequence that ends while the builder is still inside a
loop body is accepted: whenever no loop-end is unmatched, the top-level
builder succeeds (loop-begins left open at end-of-input are closed
implicitly), and inside a loop the builder always succeeds; e.g. the
unterminated source `[+` builds successfully. -/
theorem build_unterminated_ok :
    (∀ cs : List Command, hasUnmatchedClose cs 0 = false →
      ∃ t, build cs false = some t)
    ∧ (∀ cs : List Command, (buildAux cs true).isSome = true)
    ∧ build [Command.Jump, Command.IncrementValue] false
      = some (.List [.Jump (.List [.AddValue 1])]) := by
  refine ⟨?_, ?_, ?_⟩
  · intro cs h
    rcases hb : build cs false with _ | t
    · rw [build_none_iff] at hb
      rw [hb] at h
      cases h
    · exact ⟨t, rfl⟩
  · intro cs
    exact buildAux_true_total cs.length cs (Nat.le_refl _)
  · simp [build, buildAux]

/-- Witness for C9: the unterminated program `[+` accepted at top level. -/
theorem build_unterminated_ok_witness :
    ∃ t, build [Command.Jump, Command.IncrementValue] false = some t :=
  build_unterminated_ok.1 [Command.Jump, Command.IncrementValue] (by rfl)

/-- C10.  A freshly constructed engine starts with the pointer at 0 and a
tape that reads 0 at the current cell and at every offset; the input is the
given stream and nothing has been written. -/
theorem engine_new_spec (inp : List (Fin 256)) :
    (Engine.new inp).pointer = 0
    ∧ (Engine.new inp).get = 0
    ∧ (∀ off : Int, (Engine.new inp).get_rel off = 0)
    ∧ (Engine.new inp).input = inp
    ∧ (Engine.new inp).output = [] := by
  refine ⟨rfl, rfl, fun off => rfl, rfl, rfl⟩
